import Mathlib

/-!
Verification of the LeakHub consensus engine (`convex/leaks.ts` family of
modules).  Texts are modelled as `List Char`, JavaScript `Map`s as
association lists in insertion order, numeric scores exactly (naturals for
counts and edit distances, reals for the similarity scores), and the Convex
database as explicit association-list tables with state passing.
-/

namespace LeakHub

/-- Whitespace characters of the JavaScript regexp class `\s`
(also the set trimmed by `String.prototype.trim`). -/
def isWs (c : Char) : Bool :=
  let n := c.toNat
  n = 32 || n = 9 || n = 10 || n = 11 || n = 12 || n = 13 ||
  n = 0xa0 || n = 0x1680 || (0x2000 ≤ n && n ≤ 0x200a) ||
  n = 0x2028 || n = 0x2029 || n = 0x202f || n = 0x205f || n = 0x3000 || n = 0xfeff

/-- Character-wise lowercasing, modelling `String.prototype.toLowerCase`. -/
def jsLower (s : List Char) : List Char := s.map Char.toLower

/-- Leading and trailing whitespace removal, modelling `String.prototype.trim`. -/
def trimWs (s : List Char) : List Char :=
  ((s.dropWhile isWs).reverse.dropWhile isWs).reverse

/-- Replace every maximal run of whitespace by a single space,
modelling `replace(/\s+/g, " ")`. -/
def collapseWs : List Char → List Char
  | [] => []
  | c :: rest =>
    if isWs c then ' ' :: collapseWs (rest.dropWhile isWs)
    else c :: collapseWs rest
termination_by l => l.length
decreasing_by
  · simp only [List.length_cons]
    exact Nat.lt_succ_of_le ((List.dropWhile_suffix _).sublist.length_le)
  · simp only [List.length_cons]
    exact Nat.lt_succ_self _

/-- Index (within the leading whitespace run) of the last newline,
modelling the greedy-with-backtracking match of `\s*` followed by `\n`. -/
def lastNlIndex : List Char → Option Nat
  | [] => none
  | c :: rest =>
    if isWs c then
      match lastNlIndex rest with
      | some i => some (i + 1)
      | none => if c = '\n' then some 0 else none
    else none

/-- Model of `replace(/\n\s*\n/g, "\n")`: each match `\n\s*\n` (a newline, a
greedy whitespace run, and the last newline inside that run) is replaced by a
single newline, scanning left to right without rescanning replacements. -/
def collapseBlankLines : List Char → List Char
  | [] => []
  | c :: rest =>
    if c = '\n' then
      match lastNlIndex rest with
      | some i => '\n' :: collapseBlankLines (rest.drop (i + 1))
      | none => '\n' :: collapseBlankLines rest
    else c :: collapseBlankLines rest
termination_by l => l.length
decreasing_by
  · simp only [List.length_cons]
    exact Nat.lt_succ_of_le (List.length_drop .. ▸ Nat.sub_le _ _)
  · simp only [List.length_cons]
    exact Nat.lt_succ_self _
  · simp only [List.length_cons]
    exact Nat.lt_succ_self _

/-- A text is whitespace-normalized when every whitespace character in it is
a plain space and no two consecutive characters are both whitespace. -/
def wsNormed (s : List Char) : Prop :=
  (∀ c ∈ s, isWs c = true → c = ' ') ∧
  List.Chain' (fun a b => ¬ (isWs a = true ∧ isWs b = true)) s

/-- Model of `normalizeText` (crons.ts lines 29–35): lowercase, trim,
collapse whitespace runs to single spaces, collapse blank-line runs. -/
def normalizeText (text : List Char) : List Char :=
  collapseBlankLines (collapseWs (trimWs (jsLower text)))

/-- Model of `text.split(/\s+/).filter(Boolean)`: the whitespace-separated
tokens of a text, empties removed. -/
def tokenize : List Char → List (List Char)
  | [] => []
  | c :: rest =>
    if h : isWs c then tokenize rest
    else ((c :: rest).takeWhile (fun d => !isWs d)) ::
      tokenize ((c :: rest).dropWhile (fun d => !isWs d))
termination_by l => l.length
decreasing_by
  · simp only [List.length_cons]
    exact Nat.lt_succ_self _
  · rw [List.dropWhile_cons]
    simp only [h, Bool.not_false, if_true, List.length_cons]
    exact Nat.lt_succ_of_le ((List.dropWhile_suffix _).sublist.length_le)

/-- Model of `Array.prototype.join(" ")` on a slice of tokens. -/
def joinSpace (ts : List (List Char)) : List Char :=
  (ts.intersperse [' ']).flatten

/-- A JavaScript `Map<string, number>` of shingle frequencies, modelled as an
association list in insertion order. -/
abbrev ShingleVec := List (List Char × Nat)

/-- Model of `Map.prototype.get`. -/
def vecLookup (v : ShingleVec) (k : List Char) : Option Nat :=
  (v.find? (fun p => p.1 = k)).map (fun p => p.2)

/-- Model of `Map.prototype.set`: overwrite an existing key in place,
otherwise append at the end. -/
def vecSet (v : ShingleVec) (k : List Char) (n : Nat) : ShingleVec :=
  if (v.find? (fun p => p.1 = k)).isSome then
    v.map (fun p => if p.1 = k then (p.1, n) else p)
  else v ++ [(k, n)]

/-- Model of `vector.set(key, (vector.get(key) ?? 0) + 1)`. -/
def vecInc (v : ShingleVec) (k : List Char) : ShingleVec :=
  vecSet v k ((vecLookup v k).getD 0 + 1)

def SHINGLE_SIZE : Nat := 4

noncomputable def SHINGLE_THRESHOLD : ℝ := 0.6

noncomputable def SIMILARITY_THRESHOLD : ℝ := 0.85

/-- Model of `buildShingleVector` (crons.ts lines 50–71): frequency vector of
overlapping 4-token shingles, with a single-token fallback when no shingle
can be produced, and the empty vector for tokenless text. -/
def buildShingleVector (text : List Char) : ShingleVec :=
  let tokens := tokenize text
  if tokens.length = 0 then []
  else
    let vector := (List.range (tokens.length + 1 - SHINGLE_SIZE)).foldl
      (fun v i => vecInc v (joinSpace ((tokens.drop i).take SHINGLE_SIZE))) []
    if vector.length = 0 then tokens.foldl (fun v t => vecInc v t) []
    else vector

/-- Sum of squared values of a vector, modelling the `magA`/`magB` loops. -/
def sumSquares (v : ShingleVec) : Nat :=
  v.foldl (fun acc p => acc + p.2 * p.2) 0

/-- Dot product over shared keys, iterating the first (smaller) vector,
modelling the `dot` loop of `cosineSimilarity`. -/
def dotShared (smaller larger : ShingleVec) : Nat :=
  smaller.foldl (fun acc p =>
    match vecLookup larger p.1 with
    | some other => acc + p.2 * other
    | none => acc) 0

/-- Model of `cosineSimilarity` (crons.ts lines 77–111). -/
noncomputable def cosineSimilarity (vecA vecB : ShingleVec) : ℝ :=
  if vecA.length = 0 ∨ vecB.length = 0 then
    (if vecA.length = vecB.length then 1 else 0)
  else
    let magA := sumSquares vecA
    let magB := sumSquares vecB
    let dot :=
      if vecA.length ≤ vecB.length then dotShared vecA vecB
      else dotShared vecB vecA
    if magA = 0 ∨ magB = 0 then 0
    else (dot : ℝ) / Real.sqrt ((magA : ℝ) * (magB : ℝ))

/-- Substitution cost of the edit-distance recurrence. -/
def levCost (c1 c2 : Char) : Nat := if c1 = c2 then 0 else 1

/-- Inner loop (over `j`) of the two-row Levenshtein computation: given the
next characters of `str2`, the entry `previousRow[j-1]`, the remaining tail
`previousRow[j..]`, and the entry `currentRow[j-1]`, produce `currentRow[1..]`. -/
def levRowStep (char1 : Char) : List Char → Nat → List Nat → Nat → List Nat
  | ch :: s2rest, pPrev, pj :: pRest, cPrev =>
    let cost := levCost char1 ch
    let cur := min (min (cPrev + 1) (pj + 1)) (pPrev + cost)
    cur :: levRowStep char1 s2rest pj pRest cur
  | _, _, _, _ => []

/-- One iteration of the outer loop (over `i`) of the two-row Levenshtein
computation: `currentRow[0] = i` followed by the inner loop. -/
def levRow (char1 : Char) (str2 : List Char) (i : Nat) (prev : List Nat) : List Nat :=
  match prev with
  | [] => [i]
  | p0 :: pRest => i :: levRowStep char1 str2 p0 pRest i

/-- The outer loop of the two-row Levenshtein computation, threading the
previous row through the remaining characters of `str1`. -/
def levRows (str2 : List Char) : List Char → Nat → List Nat → List Nat
  | [], _, prev => prev
  | char1 :: s1rest, i, prev => levRows str2 s1rest (i + 1) (levRow char1 str2 i prev)

/-- The edit distance computed by `levenshteinSimilarity`'s dynamic program:
initial row `[0..len2]`, one row per character of `str1`, and the entry at
index `len2` of the final row. -/
def levDistance (str1 str2 : List Char) : Nat :=
  (levRows str2 str1 1 (List.range (str2.length + 1))).getD str2.length 0

/-- Reference edit distance by structural recursion, used to verify the
two-row dynamic program. -/
def edist : List Char → List Char → Nat
  | [], ys => ys.length
  | xs, [] => xs.length
  | x :: xs, y :: ys =>
    min (min (edist (x :: xs) ys + 1) (edist xs (y :: ys) + 1))
      (edist xs ys + levCost x y)

/-- Edit distance between prefixes, read off the reference distance of the
reversed prefixes; the dynamic program rows hold these values. -/
def dP (a b : List Char) : Nat := edist a.reverse b.reverse

/-- The tail of a DP row: distances from a fixed first-string prefix to the
successive extensions of a second-string prefix. -/
def rowTail (p : List Char) : List Char → List Char → List Nat
  | _, [] => []
  | q, y :: t => dP p (q ++ [y]) :: rowTail p (q ++ [y]) t

/-- Model of `levenshteinSimilarity` (crons.ts lines 117–160). -/
noncomputable def levenshteinSimilarity (str1 str2 : List Char) : ℝ :=
  if str1.length = 0 ∧ str2.length = 0 then 1
  else if str1.length = 0 ∨ str2.length = 0 then 0
  else if str1.length < str2.length then levenshteinSimilarity str2 str1
  else
    let distance := levDistance str1 str2
    max 0 (1 - (distance : ℝ) / ((max str1.length str2.length : Nat) : ℝ))
termination_by str2.length

/-- Model of `calculateSimilarity` (crons.ts lines 167–188): short-circuit on
equal normalized texts, cosine filter, Levenshtein confirmation. -/
noncomputable def calculateSimilarity (text1 text2 : List Char) : ℝ :=
  let normalized1 := normalizeText text1
  let normalized2 := normalizeText text2
  if normalized1 = normalized2 then 1
  else
    let shingleScore :=
      cosineSimilarity (buildShingleVector normalized1) (buildShingleVector normalized2)
    if shingleScore < SHINGLE_THRESHOLD then shingleScore
    else max shingleScore (levenshteinSimilarity normalized1 normalized2)

/-- One leak record as returned by `getRequestConsensusData`. -/
structure LeakDetail where
  leakId : Nat
  leakText : List Char
  submittedBy : Option Nat
  isFullyVerified : Bool
deriving DecidableEq

/-- The snapshot returned by `getRequestConsensusData`. -/
structure ConsensusData where
  closed : Bool
  submittedBy : Option Nat
  leaks : List LeakDetail
deriving DecidableEq

/-- A pending submission after the narrowing filter: real submitter, not yet
verified. -/
structure PendingLeak where
  leakId : Nat
  leakText : List Char
  submittedBy : Nat
deriving DecidableEq

/-- One entry of `similarityGroups` in `processRequestConsensus`. -/
structure SimilarityGroup where
  leakIds : List Nat
  userIds : List Nat
  representativeText : List Char
deriving DecidableEq

/-- The decision handed to `applyConsensusResult`. -/
structure Decision where
  leakId : Nat
  verifierIds : List Nat
deriving DecidableEq

/-- The filter at crons.ts lines 426–435: keep submissions that have a real
submitter and are not yet verified. -/
def pendingOf (data : ConsensusData) : List PendingLeak :=
  data.leaks.filterMap (fun d =>
    match d.submittedBy with
    | some u => if d.isFullyVerified then none else some ⟨d.leakId, d.leakText, u⟩
    | none => none)

/-- The inner loop of the greedy clustering pass (crons.ts lines 457–483):
join the first group whose representative scores at least the threshold
(recording the submitter only when new), else append a fresh group. -/
noncomputable def insertIntoGroups : List SimilarityGroup → PendingLeak → List SimilarityGroup
  | [], detail => [⟨[detail.leakId], [detail.submittedBy], detail.leakText⟩]
  | group :: rest, detail =>
    if SIMILARITY_THRESHOLD ≤ calculateSimilarity group.representativeText detail.leakText then
      (if detail.submittedBy ∈ group.userIds then group
       else ⟨group.leakIds ++ [detail.leakId], group.userIds ++ [detail.submittedBy],
         group.representativeText⟩) :: rest
    else group :: insertIntoGroups rest detail

/-- The greedy clustering pass, processing submissions in append order. -/
noncomputable def clusterize (details : List PendingLeak) : List SimilarityGroup :=
  details.foldl insertIntoGroups []

/-- Loop body of the largest-group scan (crons.ts lines 486–493): take the
current group when it has at least two submitters and strictly more of them
than the best so far. -/
def selStep (acc : Option SimilarityGroup) (group : SimilarityGroup) : Option SimilarityGroup :=
  if 2 ≤ group.userIds.length then
    match acc with
    | none => some group
    | some best =>
      if best.userIds.length < group.userIds.length then some group else acc
  else acc

/-- The largest-group scan (crons.ts lines 485–493). -/
def selectLargest (groups : List SimilarityGroup) : Option SimilarityGroup :=
  groups.foldl selStep none

/-- Model of `processRequestConsensus` (crons.ts lines 412–527), from the
fetched snapshot to the decision passed to the applier (`none` = the action
returns without invoking any mutation). -/
noncomputable def processRequestConsensus (dataOpt : Option ConsensusData) : Option Decision :=
  match dataOpt with
  | none => none
  | some data =>
    if data.closed then none
    else
      let leakDetails := pendingOf data
      if leakDetails.length < 2 then none
      else
        let submitters := (leakDetails.map (fun d => d.submittedBy)).toFinset
        if submitters.card < 2 then none
        else
          let similarityGroups := clusterize leakDetails
          match selectLargest similarityGroups with
          | none => none
          | some largestGroup =>
            let leakToVerifyId := largestGroup.leakIds.headI
            match leakDetails.find? (fun d => d.leakId = leakToVerifyId) with
            | none => none
            | some leakToVerify =>
              let verifierIds :=
                largestGroup.userIds.filter (fun u => u ≠ leakToVerify.submittedBy)
              if verifierIds.length = 0 then none
              else some ⟨leakToVerify.leakId, verifierIds⟩

/-- Number of distinct submitters of a cluster. -/
def distinctCount (g : SimilarityGroup) : Nat := g.userIds.toFinset.card

/-- Structural invariant of the clusters built by the greedy pass over a
detail list `S`: the recorded submitters are distinct, the member lists are
non-empty, and the heads of both lists come from the cluster's first member. -/
def GroupInv (S : List PendingLeak) (g : SimilarityGroup) : Prop :=
  g.userIds.Nodup ∧ g.leakIds ≠ [] ∧ g.userIds ≠ [] ∧
  ∃ d ∈ S, g.leakIds.headI = d.leakId ∧ g.userIds.headI = d.submittedBy

/-- Winner selection as the spec words it (§4.2 step 3): the earliest-formed
cluster that has at least two distinct submitters and whose distinct-submitter
count is maximal among such clusters. -/
def winnerSpec (groups : List SimilarityGroup) : Option SimilarityGroup :=
  groups.find? (fun g =>
    2 ≤ distinctCount g ∧ ∀ h ∈ groups, 2 ≤ distinctCount h → distinctCount h ≤ distinctCount g)

/-- A stored leak document (the fields read or written by the applier). -/
structure LeakDoc where
  submittedBy : Option Nat
  isFullyVerified : Bool
  verifiedBy : Option (List Nat)
deriving DecidableEq

/-- The `closedBy` discriminator of the `requests` schema. -/
inductive ClosedBy
  | user
  | verification
deriving DecidableEq

/-- A stored request document (the fields read or written by the applier). -/
structure RequestDoc where
  closed : Bool
  closedBy : Option ClosedBy
  submittedBy : Option Nat
  leaks : List Nat
deriving DecidableEq

/-- A stored user document (the applier only touches the point ledger). -/
structure UserDoc where
  points : Option Nat
deriving DecidableEq

/-- A database table: documents indexed by id. -/
abbrev Table (α : Type) := List (Nat × α)

/-- Model of `ctx.db.get`. -/
def dbGet {α : Type} (t : Table α) (id : Nat) : Option α :=
  (t.find? (fun p => p.1 = id)).map (fun p => p.2)

/-- Model of `ctx.db.patch`: replace the document with the given id. -/
def dbModify {α : Type} (t : Table α) (id : Nat) (f : α → α) : Table α :=
  t.map (fun p => if p.1 = id then (p.1, f p.2) else p)

/-- The persistent state the applier reads and writes. -/
structure DbState where
  requests : Table RequestDoc
  leaks : Table LeakDoc
  users : Table UserDoc
deriving DecidableEq

/-- Arguments of `applyConsensusResult`. -/
structure ApplyArgs where
  requestId : Nat
  leakId : Nat
  verifierIds : List Nat
deriving DecidableEq

/-- Award points to a user if their document exists:
`patch({points: (user.points ?? 0) + amount})`. -/
def awardPoints (users : Table UserDoc) (userId : Nat) (amount : Nat) : Table UserDoc :=
  match dbGet users userId with
  | none => users
  | some u => dbModify users userId (fun _ => ⟨some (u.points.getD 0 + amount)⟩)

/-- Model of `applyConsensusResult` (crons.ts lines 533–587): guards, then
verification of the leak, closing of the request and point awards. -/
def applyConsensusResult (args : ApplyArgs) (st : DbState) : DbState :=
  match dbGet st.requests args.requestId with
  | none => st
  | some request =>
    if request.closed then st
    else
      match dbGet st.leaks args.leakId with
      | none => st
      | some leak =>
        if leak.isFullyVerified then st
        else
          match leak.submittedBy with
          | none => st
          | some submitterId =>
            let leaks1 := dbModify st.leaks args.leakId
              (fun l => { l with isFullyVerified := true, verifiedBy := some args.verifierIds })
            let requests1 := dbModify st.requests args.requestId
              (fun r => { r with closed := true })
            let users1 := awardPoints st.users submitterId 100
            let users2 := args.verifierIds.foldl (fun us v => awardPoints us v 50) users1
            let users3 :=
              match request.submittedBy with
              | none => users2
              | some creatorId => awardPoints users2 creatorId 20
            { requests := requests1, leaks := leaks1, users := users3 }

/-- The guard conjunction of `applyConsensusResult`: request present and not
closed, leak present, unverified, with a known submitter. -/
def applyGuardsPass (args : ApplyArgs) (st : DbState) : Bool :=
  match dbGet st.requests args.requestId with
  | none => false
  | some request =>
    if request.closed then false
    else
      match dbGet st.leaks args.leakId with
      | none => false
      | some leak => !leak.isFullyVerified && leak.submittedBy.isSome

/-- The total point award a given user receives from one successful
application: 100 as canonical submitter, 50 per occurrence in the verifier
list, 20 as request creator — additive, not exclusive. -/
def pointBonus (args : ApplyArgs) (submitterId : Nat) (creator : Option Nat) (u : Nat) : Nat :=
  (if u = submitterId then 100 else 0) + 50 * args.verifierIds.count u +
  (if creator = some u then 20 else 0)

theorem dbGet_nil {α : Type} (id : Nat) : dbGet ([] : Table α) id = none := rfl

theorem dbGet_cons {α : Type} (p : Nat × α) (t : Table α) (id : Nat) :
    dbGet (p :: t) id = if p.1 = id then some p.2 else dbGet t id := by
  by_cases h : p.1 = id
  · simp [dbGet, List.find?_cons_of_pos, h]
  · simp [dbGet, List.find?_cons_of_neg, h]

theorem dbModify_cons {α : Type} (p : Nat × α) (t : Table α) (id : Nat) (f : α → α) :
    dbModify (p :: t) id f = (if p.1 = id then (p.1, f p.2) else p) :: dbModify t id f := rfl

theorem dbGet_dbModify {α : Type} (t : Table α) (id id' : Nat) (f : α → α) :
    dbGet (dbModify t id f) id' =
      if id' = id then (dbGet t id').map f else dbGet t id' := by
  induction t with
  | nil => simp [dbModify, dbGet_nil]
  | cons p rest ih =>
    rw [dbModify_cons]
    by_cases h1 : p.1 = id
    · rw [if_pos h1, dbGet_cons, dbGet_cons]
      by_cases h2 : id' = id
      · subst h2
        rw [if_pos h1, if_pos h1, if_pos rfl]
        simp
      · have h3 : ¬ p.1 = id' := fun hx => h2 (hx ▸ h1.symm ▸ rfl)
        rw [if_neg (by simpa using h3), if_neg h3, if_neg h2, ih, if_neg h2]
    · rw [if_neg h1, dbGet_cons, dbGet_cons]
      by_cases h3 : p.1 = id'
      · have h2 : ¬ id' = id := fun hx => h1 (h3.trans hx)
        rw [if_pos h3, if_pos h3, if_neg h2]
      · rw [if_neg h3, if_neg h3, ih]

theorem dbGet_awardPoints (us : Table UserDoc) (uid amt u : Nat) :
    dbGet (awardPoints us uid amt) u =
      if u = uid then
        (dbGet us uid).map (fun d => ⟨some (d.points.getD 0 + amt)⟩)
      else dbGet us u := by
  unfold awardPoints
  cases hd : dbGet us uid with
  | none => by_cases h : u = uid <;> simp [h, hd]
  | some d =>
    rw [dbGet_dbModify]
    by_cases h : u = uid
    · subst h
      simp [hd]
    · simp [h]

theorem dbGet_awardFold (vs : List Nat) (us : Table UserDoc) (amt u : Nat) :
    dbGet (vs.foldl (fun acc v => awardPoints acc v amt) us) u =
      if vs.count u = 0 then dbGet us u
      else (dbGet us u).map (fun d => ⟨some (d.points.getD 0 + amt * vs.count u)⟩) := by
  induction vs generalizing us with
  | nil => simp
  | cons v rest ih =>
    simp only [List.foldl_cons]
    rw [ih, dbGet_awardPoints]
    by_cases h : u = v
    · subst h
      simp only [eq_self_iff_true, if_true]
      have hcount : (u :: rest).count u = rest.count u + 1 := by
        simp [List.count_cons]
      rw [hcount, if_neg (by omega : ¬ (rest.count u + 1 = 0))]
      by_cases hzero : rest.count u = 0
      · rw [if_pos hzero, hzero]
        cases hd : dbGet us u with
        | none => simp
        | some d => simp
      · rw [if_neg hzero]
        cases hd : dbGet us u with
        | none => simp
        | some d =>
          simp only [Option.map_some', Option.getD_some, Option.some.injEq, UserDoc.mk.injEq,
            Option.some.injEq]
          ring
    · simp only [if_neg h]
      have hcount : (v :: rest).count u = rest.count u := by
        have hvu : ¬ v = u := fun hx => h hx.symm
        rw [List.count_cons]
        simp [hvu]
      rw [hcount]

/-- C3: on every successful application of a verification decision, every
user's ledger grows by exactly their bonus: 100 for the canonical submitter,
50 per occurrence as a verifier, plus 20 for the request creator — additive,
not exclusive. Users with a zero bonus are untouched. -/
theorem applier_point_awards (args : ApplyArgs) (st : DbState)
    (request : RequestDoc) (leak : LeakDoc) (submitterId : Nat)
    (hreq : dbGet st.requests args.requestId = some request)
    (hopen : request.closed = false)
    (hleak : dbGet st.leaks args.leakId = some leak)
    (hunv : leak.isFullyVerified = false)
    (hsub : leak.submittedBy = some submitterId)
    (u : Nat) (d : UserDoc) (hd : dbGet st.users u = some d) :
    dbGet (applyConsensusResult args st).users u =
      (if pointBonus args submitterId request.submittedBy u = 0 then some d
       else some ⟨some (d.points.getD 0 + pointBonus args submitterId request.submittedBy u)⟩) := by
  unfold applyConsensusResult
  rw [hreq]
  simp only [hopen, Bool.false_eq_true, if_false]
  rw [hleak]
  simp only [hunv, Bool.false_eq_true, if_false]
  rw [hsub]
  simp only
  have h1 : dbGet (awardPoints st.users submitterId 100) u =
      if u = submitterId then some ⟨some (d.points.getD 0 + 100)⟩ else some d := by
    rw [dbGet_awardPoints]
    by_cases h : u = submitterId
    · subst h
      simp [hd]
    · simp [h, hd]
  have h2 : dbGet (args.verifierIds.foldl (fun us v => awardPoints us v 50)
        (awardPoints st.users submitterId 100)) u =
      if u = submitterId ∨ args.verifierIds.count u ≠ 0 then
        some ⟨some (d.points.getD 0 + (if u = submitterId then 100 else 0)
          + 50 * args.verifierIds.count u)⟩
      else some d := by
    rw [dbGet_awardFold, h1]
    by_cases hc : args.verifierIds.count u = 0
    · rw [if_pos hc, hc]
      by_cases h : u = submitterId
      · rw [if_pos h, if_pos (Or.inl h), if_pos h]
      · rw [if_neg h, if_neg (by simp [h])]
    · rw [if_neg hc]
      by_cases h : u = submitterId
      · rw [if_pos h, if_pos (Or.inl h), if_pos h]
        simp only [Option.map_some', Option.getD_some, Option.some.injEq, UserDoc.mk.injEq,
          Option.some.injEq]
      · rw [if_neg h, if_pos (Or.inr hc), if_neg h]
        simp only [Option.map_some', Option.some.injEq, UserDoc.mk.injEq, Option.some.injEq]
        ring
  cases hcr : request.submittedBy with
  | none =>
    simp only [pointBonus, reduceCtorEq, if_false, Nat.add_zero]
    rw [h2]
    by_cases hs : u = submitterId
    · subst hs
      simp only [eq_self_iff_true, if_true, true_or]
      rw [if_neg (by omega : ¬ (100 + 50 * args.verifierIds.count u = 0))]
      simp [Nat.add_assoc]
    · simp only [hs, if_false, false_or, Nat.add_zero, Nat.zero_add]
      by_cases hc : args.verifierIds.count u = 0
      · rw [if_neg (by simp [hc]), if_pos (by omega)]
      · rw [if_pos hc, if_neg (by omega)]
  | some creatorId =>
    simp only [pointBonus]
    rw [dbGet_awardPoints]
    by_cases hcu : u = creatorId
    · subst hcu
      simp only [eq_self_iff_true, if_true]
      rw [h2]
      by_cases hs : u = submitterId
      · subst hs
        simp only [eq_self_iff_true, if_true, true_or, Option.map_some', Option.getD_some]
        rw [if_neg (by omega : ¬ (100 + 50 * args.verifierIds.count u + 20 = 0))]
        simp only [Option.some.injEq, UserDoc.mk.injEq, Option.some.injEq]
        ring
      · simp only [hs, if_false, false_or, Nat.add_zero, Nat.zero_add]
        by_cases hc : args.verifierIds.count u = 0
        · rw [if_neg (by simp [hc]), if_neg (by omega)]
          simp [hc]
        · rw [if_pos hc, if_neg (by omega)]
          simp only [Option.map_some', Option.getD_some, Option.some.injEq, UserDoc.mk.injEq,
            Option.some.injEq]
          ring
    · rw [if_neg hcu]
      have hcvu : ¬ creatorId = u := fun h => hcu h.symm
      have hcne : (if (some creatorId : Option Nat) = some u then 20 else 0) = 0 := by
        simp [hcvu]
      rw [hcne, h2]
      simp only [Nat.add_zero]
      by_cases hs : u = submitterId
      · subst hs
        simp only [eq_self_iff_true, if_true, true_or]
        rw [if_neg (by omega : ¬ (100 + 50 * args.verifierIds.count u = 0))]
        simp [Nat.add_assoc]
      · simp only [hs, if_false, false_or, Nat.add_zero, Nat.zero_add]
        by_cases hc : args.verifierIds.count u = 0
        · rw [if_neg (by simp [hc]), if_pos (by omega)]
        · rw [if_pos hc, if_neg (by omega)]

/-- C1: if any guard of the Result Applier fails — request missing or closed,
leak missing, verified, or submitterless — the state is returned unchanged
(no mutation, no points); and applying the same decision twice equals
applying it once, because a successful first application closes the request
and the second run hits the `closed` guard. -/
theorem applier_guard_noop_idempotent (args : ApplyArgs) (st : DbState) :
    (applyGuardsPass args st = false → applyConsensusResult args st = st) ∧
    applyConsensusResult args (applyConsensusResult args st) = applyConsensusResult args st := by
  have hclosed_noop : ∀ (st2 : DbState) (r2 : RequestDoc),
      dbGet st2.requests args.requestId = some r2 → r2.closed = true →
      applyConsensusResult args st2 = st2 := by
    intro st2 r2 h2 hc2
    unfold applyConsensusResult
    simp [h2, hc2]
  have hno : applyGuardsPass args st = false → applyConsensusResult args st = st := by
    intro hg
    unfold applyGuardsPass at hg
    unfold applyConsensusResult
    cases hreq : dbGet st.requests args.requestId with
    | none => rfl
    | some request =>
      simp only [hreq] at hg
      cases hcl : request.closed with
      | true => simp [hreq, hcl]
      | false =>
        simp only [hcl, Bool.false_eq_true, if_false] at hg
        cases hleak : dbGet st.leaks args.leakId with
        | none => simp [hreq, hcl, hleak]
        | some leak =>
          simp only [hleak] at hg
          cases hv : leak.isFullyVerified with
          | true => simp [hreq, hcl, hleak, hv]
          | false =>
            cases hsub : leak.submittedBy with
            | none => simp [hreq, hcl, hleak, hv, hsub]
            | some subId => simp [hv, hsub] at hg
  refine ⟨hno, ?_⟩
  by_cases hg : applyGuardsPass args st = false
  · rw [hno hg]
    exact hno hg
  · unfold applyGuardsPass at hg
    cases hreq : dbGet st.requests args.requestId with
    | none => simp [hreq] at hg
    | some request =>
      simp only [hreq] at hg
      cases hcl : request.closed with
      | true => simp [hcl] at hg
      | false =>
        simp only [hcl, Bool.false_eq_true, if_false] at hg
        cases hleak : dbGet st.leaks args.leakId with
        | none => simp [hleak] at hg
        | some leak =>
          simp only [hleak] at hg
          cases hv : leak.isFullyVerified with
          | true => simp [hv] at hg
          | false =>
            cases hsub : leak.submittedBy with
            | none => simp [hv, hsub] at hg
            | some subId =>
              have hA : dbGet (applyConsensusResult args st).requests args.requestId =
                  some { request with closed := true } := by
                unfold applyConsensusResult
                simp only [hreq, hcl, Bool.false_eq_true, if_false, hleak, hv, hsub]
                rw [dbGet_dbModify, if_pos rfl, hreq]
                rfl
              exact hclosed_noop _ _ hA rfl

/-- Witness for C1: on the empty database every guard fails, and the applier
returns the state unchanged. -/
theorem applier_guard_noop_idempotent_witness :
    applyConsensusResult ⟨1, 2, [3]⟩ ⟨[], [], []⟩ = ⟨[], [], []⟩ ∧
    applyGuardsPass ⟨1, 2, [3]⟩ ⟨[], [], []⟩ = false :=
  ⟨(applier_guard_noop_idempotent ⟨1, 2, [3]⟩ ⟨[], [], []⟩).1 (by decide), by decide⟩

/-- C2 (divergence witness): the applier closes the request but never records
a close reason — `closedBy` is preserved by every invocation, and in a
concrete successful application (points awarded, leak verified) the stored
request ends with `closed = true` and `closedBy = none`, not the
`verification` reason the spec requires. -/
theorem applier_never_records_close_reason :
    (∀ (args : ApplyArgs) (st : DbState) (rid : Nat),
      (dbGet (applyConsensusResult args st).requests rid).map RequestDoc.closedBy =
        (dbGet st.requests rid).map RequestDoc.closedBy) ∧
    applyConsensusResult ⟨1, 5, [9]⟩
        ⟨[(1, ⟨false, none, some 7, [5]⟩)], [(5, ⟨some 3, false, none⟩)],
         [(3, ⟨some 0⟩), (9, ⟨some 0⟩), (7, ⟨some 0⟩)]⟩ =
      ⟨[(1, ⟨true, none, some 7, [5]⟩)], [(5, ⟨some 3, true, some [9]⟩)],
       [(3, ⟨some 100⟩), (9, ⟨some 50⟩), (7, ⟨some 20⟩)]⟩ := by
  constructor
  · intro args st rid
    unfold applyConsensusResult
    cases hreq : dbGet st.requests args.requestId with
    | none => rfl
    | some request =>
      cases hcl : request.closed with
      | true => simp [hcl]
      | false =>
        simp only [hcl, Bool.false_eq_true, if_false]
        cases hleak : dbGet st.leaks args.leakId with
        | none => rfl
        | some leak =>
          cases hv : leak.isFullyVerified with
          | true => simp [hv]
          | false =>
            simp only [hv, Bool.false_eq_true, if_false]
            cases hsub : leak.submittedBy with
            | none => rfl
            | some subId =>
              simp only
              rw [dbGet_dbModify]
              by_cases hr : rid = args.requestId
              · subst hr
                rw [if_pos rfl]
                cases dbGet st.requests args.requestId <;> rfl
              · rw [if_neg hr]
  · decide

/-- C4: the Consensus Resolver returns no decision whenever the pending
submissions number fewer than 2 or have fewer than 2 distinct submitters. -/
theorem resolver_no_decision_guards (data : ConsensusData)
    (h : (pendingOf data).length < 2 ∨
      ((pendingOf data).map (fun d => d.submittedBy)).toFinset.card < 2) :
    processRequestConsensus (some data) = none := by
  unfold processRequestConsensus
  cases hcl : data.closed with
  | true => simp [hcl]
  | false =>
    simp only [hcl, Bool.false_eq_true, if_false]
    rcases h with h | h
    · simp only [if_pos h]
    · by_cases h2 : (pendingOf data).length < 2
      · simp only [if_pos h2]
      · simp only [if_neg h2, if_pos h]

/-- Witness for C4: a snapshot with a single pending submission yields no
decision. -/
theorem resolver_no_decision_guards_witness :
    processRequestConsensus (some ⟨false, some 7, [⟨1, ['h', 'i'], some 3, false⟩]⟩) = none :=
  resolver_no_decision_guards ⟨false, some 7, [⟨1, ['h', 'i'], some 3, false⟩]⟩
    (Or.inl (by decide))

/-- Witness for C3 at a concrete successful application: the canonical
submitter's ledger grows by exactly 100. -/
theorem applier_point_awards_witness :
    dbGet (applyConsensusResult ⟨1, 5, [9]⟩
      ⟨[(1, ⟨false, none, some 7, [5]⟩)], [(5, ⟨some 3, false, none⟩)],
       [(3, ⟨some 0⟩), (9, ⟨some 0⟩), (7, ⟨some 0⟩)]⟩).users 3 = some ⟨some 100⟩ := by
  have h := applier_point_awards ⟨1, 5, [9]⟩
    ⟨[(1, ⟨false, none, some 7, [5]⟩)], [(5, ⟨some 3, false, none⟩)],
     [(3, ⟨some 0⟩), (9, ⟨some 0⟩), (7, ⟨some 0⟩)]⟩
    ⟨false, none, some 7, [5]⟩ ⟨some 3, false, none⟩ 3
    (by decide) (by decide) (by decide) (by decide) (by decide) 3 ⟨some 0⟩ (by decide)
  rw [h]
  decide

theorem vecSet_ne_nil (v : ShingleVec) (k : List Char) (n : Nat) : vecSet v k n ≠ [] := by
  unfold vecSet
  by_cases h : (v.find? (fun p => p.1 = k)).isSome
  · rw [if_pos h]
    cases v with
    | nil => simp [List.find?] at h
    | cons p rest => simp
  · rw [if_neg h]
    simp

theorem vecInc_ne_nil (v : ShingleVec) (k : List Char) : vecInc v k ≠ [] :=
  vecSet_ne_nil v k _

theorem foldl_vecInc_ne_nil (ts : List (List Char)) (v : ShingleVec) (hv : v ≠ []) :
    ts.foldl (fun w t => vecInc w t) v ≠ [] := by
  induction ts generalizing v with
  | nil => exact hv
  | cons t rest ih =>
    simp only [List.foldl_cons]
    exact ih _ (vecInc_ne_nil v t)

set_option maxHeartbeats 1000000

theorem toLower_idem (c : Char) : Char.toLower (Char.toLower c) = Char.toLower c := by
  by_cases h : 65 ≤ c.toNat ∧ c.toNat ≤ 90
  · obtain ⟨h1, h2⟩ := h
    have hc : Char.toLower c = Char.ofNat (c.toNat + 32) := by
      unfold Char.toLower
      simp only [ge_iff_le]
      rw [if_pos ⟨h1, h2⟩]
    rw [hc]
    interval_cases hn : c.toNat <;> decide
  · unfold Char.toLower
    simp only [ge_iff_le]
    rw [if_neg h, if_neg h]

theorem head?_dropWhile_not_ws (s : List Char) (c : Char)
    (h : (List.dropWhile isWs s).head? = some c) : isWs c = false := by
  induction s with
  | nil => simp [List.dropWhile] at h
  | cons x xs ih =>
    rw [List.dropWhile_cons] at h
    split at h
    · exact ih h
    · simp at h
      subst h
      simp_all

theorem dropWhile_isWs_eq_self (s : List Char)
    (h : ∀ c, s.head? = some c → isWs c = false) : List.dropWhile isWs s = s := by
  cases s with
  | nil => rfl
  | cons x xs =>
    rw [List.dropWhile_cons]
    simp [h x rfl]

theorem collapseWs_nil : collapseWs [] = [] := by
  rw [collapseWs.eq_def]

theorem collapseWs_cons (c : Char) (rest : List Char) :
    collapseWs (c :: rest) =
      if isWs c then ' ' :: collapseWs (rest.dropWhile isWs)
      else c :: collapseWs rest := by
  rw [collapseWs.eq_def]

theorem collapseWs_ne_nil (c : Char) (rest : List Char) : collapseWs (c :: rest) ≠ [] := by
  rw [collapseWs_cons]
  by_cases h : isWs c = true <;> simp [h]

theorem head?_collapseWs (s : List Char) (c : Char) (hc : s.head? = some c)
    (hw : isWs c = false) : (collapseWs s).head? = some c := by
  cases s with
  | nil => simp at hc
  | cons x xs =>
    simp only [List.head?_cons, Option.some.injEq] at hc
    subst hc
    rw [collapseWs_cons]
    simp [hw]

theorem mem_collapseWs (s : List Char) (c : Char) (h : c ∈ collapseWs s) :
    c = ' ' ∨ (c ∈ s ∧ isWs c = false) := by
  induction s using collapseWs.induct with
  | case1 => rw [collapseWs_nil] at h; simp at h
  | case2 x rest hx ih =>
    rw [collapseWs_cons, if_pos hx] at h
    rcases List.mem_cons.mp h with h | h
    · exact Or.inl h
    · rcases ih h with h | ⟨hm, hw⟩
      · exact Or.inl h
      · exact Or.inr ⟨List.mem_cons_of_mem _ ((List.dropWhile_suffix isWs).sublist.subset hm), hw⟩
  | case3 x rest hx ih =>
    rw [collapseWs_cons, if_neg hx] at h
    rcases List.mem_cons.mp h with h | h
    · subst h
      exact Or.inr ⟨List.mem_cons_self _ _, by simpa using hx⟩
    · rcases ih h with h | ⟨hm, hw⟩
      · exact Or.inl h
      · exact Or.inr ⟨List.mem_cons_of_mem _ hm, hw⟩

theorem wsNormed_collapseWs (s : List Char) : wsNormed (collapseWs s) := by
  induction s using collapseWs.induct with
  | case1 => rw [collapseWs_nil]; exact ⟨by simp, by simp⟩
  | case2 x rest hx ih =>
    rw [collapseWs_cons, if_pos hx]
    obtain ⟨ih1, ih2⟩ := ih
    refine ⟨?_, ?_⟩
    · intro c hc hcw
      rcases List.mem_cons.mp hc with h | h
      · exact h
      · exact ih1 c h hcw
    · rw [List.chain'_cons']
      refine ⟨?_, ih2⟩
      intro b hb hcontra
      obtain ⟨_, hwb⟩ := hcontra
      cases hdw : rest.dropWhile isWs with
      | nil => rw [hdw, collapseWs_nil] at hb; simp at hb
      | cons y ys =>
        have hy : isWs y = false := head?_dropWhile_not_ws rest y (by rw [hdw]; rfl)
        have hh := head?_collapseWs (y :: ys) y rfl hy
        rw [hdw, hh] at hb
        simp only [Option.mem_def, Option.some.injEq] at hb
        subst hb
        rw [hy] at hwb
        cases hwb
  | case3 x rest hx ih =>
    rw [collapseWs_cons, if_neg hx]
    obtain ⟨ih1, ih2⟩ := ih
    refine ⟨?_, ?_⟩
    · intro c hc hcw
      rcases List.mem_cons.mp hc with h | h
      · subst h; exact absurd hcw (by simpa using hx)
      · exact ih1 c h hcw
    · rw [List.chain'_cons']
      refine ⟨?_, ih2⟩
      intro b _ hcontra
      exact absurd hcontra.1 (by simpa using hx)

theorem collapseWs_of_wsNormed (s : List Char) (h : wsNormed s) : collapseWs s = s := by
  induction s with
  | nil => exact collapseWs_nil
  | cons x rest ih =>
    obtain ⟨h1, h2⟩ := h
    rw [List.chain'_cons'] at h2
    obtain ⟨hhd, hrest⟩ := h2
    have hihyp : wsNormed rest :=
      ⟨fun c hc hcw => h1 c (List.mem_cons_of_mem _ hc) hcw, hrest⟩
    rw [collapseWs_cons]
    by_cases hx : isWs x = true
    · have hsp : x = ' ' := h1 x (List.mem_cons_self _ _) hx
      have hdw : rest.dropWhile isWs = rest := by
        apply dropWhile_isWs_eq_self
        intro c hc
        have hnc := hhd c (by rw [hc]; rfl)
        by_contra hcw
        exact hnc ⟨hx, by simpa using hcw⟩
      rw [if_pos hx, hdw, hsp]
      rw [ih hihyp]
    · rw [if_neg hx]
      rw [ih hihyp]

theorem getLast?_cons_of_ne_nil (c : Char) (l : List Char) (h : l ≠ []) :
    (c :: l).getLast? = l.getLast? := by
  have h2 : ([c] ++ l).getLast? = l.getLast? := List.getLast?_append_of_ne_nil _ h
  simpa using h2

theorem mem_of_getLast?_eq (l : List Char) (c : Char) (h : l.getLast? = some c) : c ∈ l := by
  induction l with
  | nil => simp at h
  | cons x xs ih =>
    cases hxs : xs with
    | nil => subst hxs; simp at h; simp [h]
    | cons y ys =>
      rw [getLast?_cons_of_ne_nil x xs (by rw [hxs]; simp)] at h
      subst hxs
      exact List.mem_cons_of_mem _ (ih h)

theorem getLast?_collapseWs (s : List Char) :
    ∀ c, s.getLast? = some c → isWs c = false → (collapseWs s).getLast? = some c := by
  induction s using collapseWs.induct with
  | case1 => intro c hc _; simp at hc
  | case2 x rest hx ih =>
    intro c hc hw
    rw [collapseWs_cons, if_pos hx]
    cases hr : rest with
    | nil =>
      subst hr
      simp only [List.getLast?_singleton, Option.some.injEq] at hc
      subst hc
      rw [hx] at hw
      cases hw
    | cons y ys =>
      subst hr
      have hrne : (y :: ys) ≠ [] := by simp
      have hlast : (y :: ys).getLast? = some c := by
        rw [← getLast?_cons_of_ne_nil x (y :: ys) hrne]
        exact hc
      have hdw_ne : (y :: ys).dropWhile isWs ≠ [] := by
        intro hnil
        have hsplit : (y :: ys).takeWhile isWs ++ (y :: ys).dropWhile isWs = y :: ys :=
          List.takeWhile_append_dropWhile isWs (y :: ys)
        rw [hnil, List.append_nil] at hsplit
        have hcmem : c ∈ (y :: ys).takeWhile isWs := by
          rw [hsplit]
          exact mem_of_getLast?_eq (y :: ys) c hlast
        have := List.mem_takeWhile_imp hcmem
        rw [hw] at this
        cases this
      have hlast2 : ((y :: ys).dropWhile isWs).getLast? = some c := by
        have hsplit : (y :: ys).takeWhile isWs ++ (y :: ys).dropWhile isWs = y :: ys :=
          List.takeWhile_append_dropWhile isWs (y :: ys)
        have happ : ((y :: ys).takeWhile isWs ++ (y :: ys).dropWhile isWs).getLast? =
            ((y :: ys).dropWhile isWs).getLast? :=
          List.getLast?_append_of_ne_nil _ hdw_ne
        rw [hsplit] at happ
        exact happ.symm.trans hlast
      have hres := ih c hlast2 hw
      have hcwne : collapseWs ((y :: ys).dropWhile isWs) ≠ [] := by
        cases hdd : (y :: ys).dropWhile isWs with
        | nil => exact absurd hdd hdw_ne
        | cons z zs => exact collapseWs_ne_nil z zs
      rw [getLast?_cons_of_ne_nil ' ' _ hcwne]
      exact hres
  | case3 x rest hx ih =>
    intro c hc hw
    rw [collapseWs_cons, if_neg hx]
    cases hr : rest with
    | nil =>
      subst hr
      simp only [List.getLast?_singleton, Option.some.injEq] at hc
      subst hc
      rw [collapseWs_nil]
      simp
    | cons y ys =>
      subst hr
      have hrne : (y :: ys) ≠ [] := by simp
      have hlast : (y :: ys).getLast? = some c := by
        rw [← getLast?_cons_of_ne_nil x (y :: ys) hrne]
        exact hc
      have hcwne : collapseWs (y :: ys) ≠ [] := collapseWs_ne_nil y ys
      rw [getLast?_cons_of_ne_nil x _ hcwne]
      exact ih c hlast hw

theorem mem_trimWs (s : List Char) (c : Char) (h : c ∈ trimWs s) : c ∈ s := by
  unfold trimWs at h
  rw [List.mem_reverse] at h
  have h2 := (List.dropWhile_suffix isWs).sublist.subset h
  rw [List.mem_reverse] at h2
  exact (List.dropWhile_suffix isWs).sublist.subset h2

theorem head?_trimWs_not_ws (s : List Char) (c : Char)
    (h : (trimWs s).head? = some c) : isWs c = false := by
  unfold trimWs at h
  rw [List.head?_reverse] at h
  cases hy : (s.dropWhile isWs).reverse.dropWhile isWs with
  | nil => rw [hy] at h; simp at h
  | cons w ws =>
    have hyne : (s.dropWhile isWs).reverse.dropWhile isWs ≠ [] := by rw [hy]; simp
    have hsplit : (s.dropWhile isWs).reverse.takeWhile isWs ++
        (s.dropWhile isWs).reverse.dropWhile isWs = (s.dropWhile isWs).reverse :=
      List.takeWhile_append_dropWhile isWs (s.dropWhile isWs).reverse
    have happ : ((s.dropWhile isWs).reverse.takeWhile isWs ++
        (s.dropWhile isWs).reverse.dropWhile isWs).getLast? =
          ((s.dropWhile isWs).reverse.dropWhile isWs).getLast? :=
      List.getLast?_append_of_ne_nil _ hyne
    rw [hsplit] at happ
    rw [← happ, List.getLast?_reverse] at h
    exact head?_dropWhile_not_ws s c h

theorem getLast?_trimWs_not_ws (s : List Char) (c : Char)
    (h : (trimWs s).getLast? = some c) : isWs c = false := by
  unfold trimWs at h
  rw [List.getLast?_reverse] at h
  exact head?_dropWhile_not_ws _ c h

theorem trimWs_eq_self (s : List Char)
    (hh : ∀ c, s.head? = some c → isWs c = false)
    (hl : ∀ c, s.getLast? = some c → isWs c = false) : trimWs s = s := by
  unfold trimWs
  rw [dropWhile_isWs_eq_self s hh]
  have hrev : s.reverse.dropWhile isWs = s.reverse := by
    apply dropWhile_isWs_eq_self
    intro c hc
    rw [List.head?_reverse] at hc
    exact hl c hc
  rw [hrev, List.reverse_reverse]

theorem collapseBlankLines_nil : collapseBlankLines [] = [] := by
  rw [collapseBlankLines.eq_def]

theorem collapseBlankLines_cons (c : Char) (rest : List Char) :
    collapseBlankLines (c :: rest) =
      if c = '\n' then
        match lastNlIndex rest with
        | some i => '\n' :: collapseBlankLines (rest.drop (i + 1))
        | none => '\n' :: collapseBlankLines rest
      else c :: collapseBlankLines rest := by
  rw [collapseBlankLines.eq_def]

theorem collapseBlankLines_of_no_nl (s : List Char) (h : '\n' ∉ s) :
    collapseBlankLines s = s := by
  induction s with
  | nil => exact collapseBlankLines_nil
  | cons c rest ih =>
    have hc : ¬ c = '\n' := fun hx => h (hx ▸ List.mem_cons_self c rest)
    rw [collapseBlankLines_cons, if_neg hc]
    rw [ih (fun hx => h (List.mem_cons_of_mem _ hx))]

theorem collapseWs_of_forall_not_ws (s : List Char) (h : ∀ c ∈ s, isWs c = false) :
    collapseWs s = s := by
  induction s with
  | nil => exact collapseWs_nil
  | cons c rest ih =>
    rw [collapseWs_cons, if_neg (by simp [h c (List.mem_cons_self c rest)])]
    rw [ih fun d hd => h d (List.mem_cons_of_mem _ hd)]

theorem takeWhile_eq_self_of_forall (s : List Char) (p : Char → Bool)
    (h : ∀ c ∈ s, p c = true) : s.takeWhile p = s := by
  induction s with
  | nil => rfl
  | cons c rest ih =>
    rw [List.takeWhile_cons, if_pos (h c (List.mem_cons_self c rest))]
    rw [ih fun d hd => h d (List.mem_cons_of_mem _ hd)]

theorem dropWhile_eq_nil_of_forall (s : List Char) (p : Char → Bool)
    (h : ∀ c ∈ s, p c = true) : s.dropWhile p = [] := by
  induction s with
  | nil => rfl
  | cons c rest ih =>
    rw [List.dropWhile_cons, if_pos (h c (List.mem_cons_self c rest))]
    exact ih fun d hd => h d (List.mem_cons_of_mem _ hd)

theorem tokenize_nil : tokenize [] = [] := by
  rw [tokenize.eq_def]

theorem tokenize_cons (c : Char) (rest : List Char) :
    tokenize (c :: rest) =
      if isWs c then tokenize rest
      else ((c :: rest).takeWhile (fun d => !isWs d)) ::
        tokenize ((c :: rest).dropWhile (fun d => !isWs d)) := by
  rw [tokenize.eq_def]
  rfl

theorem tokenize_of_forall_not_ws (s : List Char) (hne : s ≠ [])
    (h : ∀ c ∈ s, isWs c = false) : tokenize s = [s] := by
  cases s with
  | nil => exact absurd rfl hne
  | cons c rest =>
    have hc : ¬ isWs c = true := by simp [h c (List.mem_cons_self c rest)]
    rw [tokenize_cons, if_neg hc]
    have htw : (c :: rest).takeWhile (fun d => !isWs d) = c :: rest :=
      takeWhile_eq_self_of_forall _ _ (fun d hd => by simp [h d hd])
    have hdw : (c :: rest).dropWhile (fun d => !isWs d) = [] :=
      dropWhile_eq_nil_of_forall _ _ (fun d hd => by simp [h d hd])
    rw [htw, hdw, tokenize_nil]

theorem jsLower_eq_self_of_forall (s : List Char) (h : ∀ c ∈ s, Char.toLower c = c) :
    jsLower s = s := by
  unfold jsLower
  induction s with
  | nil => rfl
  | cons c rest ih =>
    rw [List.map_cons, h c (List.mem_cons_self c rest),
      ih fun d hd => h d (List.mem_cons_of_mem _ hd)]

theorem normalizeText_of_plain (s : List Char)
    (hws : ∀ c ∈ s, isWs c = false)
    (hlo : ∀ c ∈ s, Char.toLower c = c) : normalizeText s = s := by
  unfold normalizeText
  rw [jsLower_eq_self_of_forall s hlo]
  rw [trimWs_eq_self s (fun c hc => hws c (List.mem_of_mem_head? hc))
    (fun c hc => hws c (mem_of_getLast?_eq s c hc))]
  rw [collapseWs_of_forall_not_ws s hws]
  exact collapseBlankLines_of_no_nl s
    (fun hmem => absurd (hws _ hmem) (by decide))

/-- C10: the output of `normalizeText` contains no newline — the
whitespace-collapsing step replaces every whitespace run (newlines included)
by one space — so the blank-line-collapsing step never alters the string,
and normalization is idempotent. -/
theorem normalizeText_no_newline_idempotent (s : List Char) :
    '\n' ∉ normalizeText s ∧
    collapseBlankLines (collapseWs (trimWs (jsLower s))) = collapseWs (trimWs (jsLower s)) ∧
    normalizeText (normalizeText s) = normalizeText s := by
  have hnl : '\n' ∉ collapseWs (trimWs (jsLower s)) := by
    intro hmem
    rcases mem_collapseWs _ _ hmem with h | ⟨_, hw⟩
    · exact absurd h (by decide)
    · exact absurd hw (by decide)
  have hcb : collapseBlankLines (collapseWs (trimWs (jsLower s))) =
      collapseWs (trimWs (jsLower s)) := collapseBlankLines_of_no_nl _ hnl
  have hnorm : normalizeText s = collapseWs (trimWs (jsLower s)) := by
    unfold normalizeText
    exact hcb
  refine ⟨by rw [hnorm]; exact hnl, hcb, ?_⟩
  rw [hnorm]
  have hlo : ∀ c ∈ collapseWs (trimWs (jsLower s)), Char.toLower c = c := by
    intro c hc
    rcases mem_collapseWs _ _ hc with h | ⟨hm, _⟩
    · rw [h]; decide
    · have hjm : c ∈ jsLower s := mem_trimWs _ _ hm
      unfold jsLower at hjm
      rcases List.mem_map.mp hjm with ⟨d, _, hd⟩
      rw [← hd]
      exact toLower_idem d
  unfold normalizeText
  rw [jsLower_eq_self_of_forall _ hlo]
  have h2 : trimWs (collapseWs (trimWs (jsLower s))) = collapseWs (trimWs (jsLower s)) := by
    apply trimWs_eq_self
    · intro c hch
      cases hx : trimWs (jsLower s) with
      | nil => rw [hx, collapseWs_nil] at hch; simp at hch
      | cons y ys =>
        have hy : isWs y = false := head?_trimWs_not_ws (jsLower s) y (by rw [hx]; rfl)
        have hh := head?_collapseWs (y :: ys) y rfl hy
        rw [hx, hh] at hch
        simp only [Option.some.injEq] at hch
        subst hch
        exact hy
    · intro c hcl
      cases hx : trimWs (jsLower s) with
      | nil => rw [hx, collapseWs_nil] at hcl; simp at hcl
      | cons y ys =>
        have hne : (y :: ys) ≠ [] := by simp
        obtain ⟨z, hz⟩ : ∃ z, (y :: ys).getLast? = some z := by
          rw [List.getLast?_eq_getLast _ hne]
          exact ⟨_, rfl⟩
        have hzw : isWs z = false :=
          getLast?_trimWs_not_ws (jsLower s) z (by rw [hx]; exact hz)
        have hl := getLast?_collapseWs (y :: ys) z hz hzw
        rw [hx, hl] at hcl
        simp only [Option.some.injEq] at hcl
        subst hcl
        exact hzw
  rw [h2, collapseWs_of_wsNormed _ (wsNormed_collapseWs _)]
  exact collapseBlankLines_of_no_nl _ hnl

/-- C9 counterexample: a whitespace-only text normalizes to zero tokens (so
fewer than 4, and no shingle can be produced), yet `buildShingleVector`
returns the empty vector, not a non-empty fallback vector. -/
theorem shingle_fallback_counterexample :
    (tokenize (normalizeText [])).length < SHINGLE_SIZE ∧
    buildShingleVector (normalizeText []) = [] := by
  have hnorm : normalizeText [] = [] := normalizeText_of_plain [] (by simp) (by simp)
  rw [hnorm]
  constructor
  · rw [tokenize_nil]
    decide
  · simp [buildShingleVector, tokenize_nil]

/-- C9 (amended): for every text whose normalized form has at least one and
fewer than 4 tokens, the shingle loop produces nothing, the builder falls
back to counting single tokens, and the resulting vector is non-empty. -/
theorem shingle_fallback_nonempty (text : List Char)
    (h1 : tokenize (normalizeText text) ≠ [])
    (h4 : (tokenize (normalizeText text)).length < SHINGLE_SIZE) :
    buildShingleVector (normalizeText text) =
      (tokenize (normalizeText text)).foldl (fun v t => vecInc v t) [] ∧
    buildShingleVector (normalizeText text) ≠ [] := by
  have hlen : (tokenize (normalizeText text)).length ≠ 0 := by
    simpa [List.length_eq_zero] using h1
  have hrange : (tokenize (normalizeText text)).length + 1 - SHINGLE_SIZE = 0 := by
    unfold SHINGLE_SIZE at h4 ⊢
    omega
  have hmain : buildShingleVector (normalizeText text) =
      (tokenize (normalizeText text)).foldl (fun v t => vecInc v t) [] := by
    unfold buildShingleVector
    rw [if_neg hlen, hrange]
    simp [List.range_zero]
  refine ⟨hmain, ?_⟩
  rw [hmain]
  cases htk : tokenize (normalizeText text) with
  | nil => exact absurd htk h1
  | cons t rest =>
    simp only [List.foldl_cons]
    exact foldl_vecInc_ne_nil rest _ (vecInc_ne_nil [] t)

/-- Witness for the amended C9: a one-token text produces the single-token
fallback vector, which is non-empty. -/
theorem shingle_fallback_nonempty_witness :
    buildShingleVector (normalizeText ['a', 'b']) =
      (tokenize (normalizeText ['a', 'b'])).foldl (fun v t => vecInc v t) [] ∧
    buildShingleVector (normalizeText ['a', 'b']) ≠ [] := by
  have hnorm : normalizeText ['a', 'b'] = ['a', 'b'] :=
    normalizeText_of_plain _ (by decide) (by decide)
  have htok : tokenize ['a', 'b'] = [['a', 'b']] :=
    tokenize_of_forall_not_ws _ (by simp) (by decide)
  exact shingle_fallback_nonempty ['a', 'b'] (by rw [hnorm, htok]; simp)
    (by rw [hnorm, htok]; decide)

theorem selectLargest_fold_spec (gs : List SimilarityGroup) :
    ∀ acc : Option SimilarityGroup,
    (gs.foldl selStep acc = acc ∧
      ∀ g ∈ gs, 2 ≤ g.userIds.length →
        ∃ b, acc = some b ∧ g.userIds.length ≤ b.userIds.length) ∨
    (∃ pre w post, gs = pre ++ w :: post ∧
      gs.foldl selStep acc = some w ∧ 2 ≤ w.userIds.length ∧
      (∀ b, acc = some b → b.userIds.length < w.userIds.length) ∧
      (∀ h ∈ pre, 2 ≤ h.userIds.length → h.userIds.length < w.userIds.length) ∧
      (∀ h ∈ post, 2 ≤ h.userIds.length → h.userIds.length ≤ w.userIds.length)) := by
  induction gs with
  | nil =>
    intro acc
    left
    exact ⟨rfl, by simp⟩
  | cons g rest ih =>
    intro acc
    rw [List.foldl_cons]
    by_cases hg2 : 2 ≤ g.userIds.length
    · cases acc with
      | none =>
        have hstep : selStep none g = some g := by simp [selStep, hg2]
        rw [hstep]
        rcases ih (some g) with ⟨hfold, hdom⟩ |
          ⟨pre, w, post, hsplit, hfold, hw2, hdomacc, hpre, hpost⟩
        · right
          refine ⟨[], g, rest, by simp, hfold, hg2, by simp, by simp, ?_⟩
          intro h hm hh2
          obtain ⟨b, hb, hle⟩ := hdom h hm hh2
          injection hb with hb
          subst hb
          exact hle
        · right
          refine ⟨g :: pre, w, post, by rw [hsplit]; rfl, hfold, hw2, by simp, ?_, hpost⟩
          intro h hm hh2
          rcases List.mem_cons.mp hm with h1 | h1
          · rw [h1]
            exact hdomacc g rfl
          · exact hpre h h1 hh2
      | some best =>
        by_cases hlt : best.userIds.length < g.userIds.length
        · have hstep : selStep (some best) g = some g := by simp [selStep, hg2, hlt]
          rw [hstep]
          rcases ih (some g) with ⟨hfold, hdom⟩ |
            ⟨pre, w, post, hsplit, hfold, hw2, hdomacc, hpre, hpost⟩
          · right
            refine ⟨[], g, rest, by simp, hfold, hg2, ?_, by simp, ?_⟩
            · intro b hb
              injection hb with hb
              subst hb
              exact hlt
            · intro h hm hh2
              obtain ⟨b, hb, hle⟩ := hdom h hm hh2
              injection hb with hb
              subst hb
              exact hle
          · right
            refine ⟨g :: pre, w, post, by rw [hsplit]; rfl, hfold, hw2, ?_, ?_, hpost⟩
            · intro b hb
              injection hb with hb
              subst hb
              exact hlt.trans (hdomacc g rfl)
            · intro h hm hh2
              rcases List.mem_cons.mp hm with h1 | h1
              · rw [h1]
                exact hdomacc g rfl
              · exact hpre h h1 hh2
        · have hstep : selStep (some best) g = some best := by simp [selStep, hg2, hlt]
          rw [hstep]
          rcases ih (some best) with ⟨hfold, hdom⟩ |
            ⟨pre, w, post, hsplit, hfold, hw2, hdomacc, hpre, hpost⟩
          · left
            refine ⟨hfold, ?_⟩
            intro h hm hh2
            rcases List.mem_cons.mp hm with h1 | h1
            · subst h1
              exact ⟨best, rfl, by omega⟩
            · exact hdom h h1 hh2
          · right
            refine ⟨g :: pre, w, post, by rw [hsplit]; rfl, hfold, hw2, hdomacc, ?_, hpost⟩
            intro h hm hh2
            rcases List.mem_cons.mp hm with h1 | h1
            · subst h1
              have := hdomacc best rfl
              omega
            · exact hpre h h1 hh2
    · have hstep : selStep acc g = acc := by simp [selStep, hg2]
      rw [hstep]
      rcases ih acc with ⟨hfold, hdom⟩ |
        ⟨pre, w, post, hsplit, hfold, hw2, hdomacc, hpre, hpost⟩
      · left
        refine ⟨hfold, ?_⟩
        intro h hm hh2
        rcases List.mem_cons.mp hm with h1 | h1
        · subst h1
          exact absurd hh2 hg2
        · exact hdom h h1 hh2
      · right
        refine ⟨g :: pre, w, post, by rw [hsplit]; rfl, hfold, hw2, hdomacc, ?_, hpost⟩
        intro h hm hh2
        rcases List.mem_cons.mp hm with h1 | h1
        · subst h1
          exact absurd hh2 hg2
        · exact hpre h h1 hh2

theorem selectLargest_mem (gs : List SimilarityGroup) (w : SimilarityGroup)
    (h : selectLargest gs = some w) : w ∈ gs := by
  unfold selectLargest at h
  rcases selectLargest_fold_spec gs none with ⟨hfold, _⟩ |
    ⟨pre, w2, post, hsplit, hfold, _, _, _, _⟩
  · rw [hfold] at h
    cases h
  · rw [hfold] at h
    injection h with h
    subst h
    rw [hsplit]
    simp

theorem selectLargest_eq_winnerSpec (gs : List SimilarityGroup)
    (hnd : ∀ g ∈ gs, g.userIds.Nodup) :
    selectLargest gs = winnerSpec gs := by
  have hdc : ∀ g ∈ gs, distinctCount g = g.userIds.length := by
    intro g hg
    exact List.toFinset_card_of_nodup (hnd g hg)
  unfold selectLargest winnerSpec
  rcases selectLargest_fold_spec gs none with ⟨hfold, hdom⟩ |
    ⟨pre, w, post, hsplit, hfold, hw2, _, hpre, hpost⟩
  · rw [hfold]
    symm
    rw [List.find?_eq_none]
    intro g hg
    simp only [decide_eq_true_eq, not_and]
    intro hg2
    rw [hdc g hg] at hg2
    obtain ⟨b, hb, _⟩ := hdom g hg hg2
    cases hb
  · rw [hfold]
    have hwmem : w ∈ gs := by rw [hsplit]; simp
    have hmax : ∀ k ∈ gs, 2 ≤ distinctCount k → distinctCount k ≤ distinctCount w := by
      intro k hk hk2
      rw [hdc k hk] at hk2 ⊢
      rw [hdc w hwmem]
      rw [hsplit] at hk
      rcases List.mem_append.mp hk with hk1 | hk1
      · exact le_of_lt (hpre k hk1 hk2)
      · rcases List.mem_cons.mp hk1 with hk2' | hk2'
        · subst hk2'
          exact le_refl _
        · exact hpost k hk2' hk2
    have hwpred : 2 ≤ distinctCount w ∧
        ∀ k ∈ gs, 2 ≤ distinctCount k → distinctCount k ≤ distinctCount w := by
      constructor
      · rw [hdc w hwmem]
        exact hw2
      · exact hmax
    symm
    rw [hsplit]
    have hprenone : ∀ p ∈ pre,
        ¬ (2 ≤ distinctCount p ∧
          ∀ k ∈ gs, 2 ≤ distinctCount k → distinctCount k ≤ distinctCount p) := by
      intro p hp hcon
      obtain ⟨hp2, hpall⟩ := hcon
      have hpmem : p ∈ gs := by rw [hsplit]; simp [hp]
      have h1 := hpall w hwmem hwpred.1
      rw [hdc p hpmem, hdc w hwmem] at h1
      rw [hdc p hpmem] at hp2
      have h2 := hpre p hp hp2
      omega
    have : ∀ (l : List SimilarityGroup), (∀ p ∈ l, p ∈ pre) →
        List.find? (fun g => decide (2 ≤ distinctCount g ∧
          ∀ h ∈ gs, 2 ≤ distinctCount h → distinctCount h ≤ distinctCount g)) (l ++ w :: post) =
        some w := by
      intro l
      induction l with
      | nil =>
        intro _
        rw [List.nil_append]
        apply List.find?_cons_of_pos
        simp only [decide_eq_true_eq]
        exact hwpred
      | cons p ps ihp =>
        intro hsub
        rw [List.cons_append]
        rw [List.find?_cons_of_neg]
        · exact ihp (fun q hq => hsub q (List.mem_cons_of_mem _ hq))
        · simp only [decide_eq_true_eq]
          exact hprenone p (hsub p (List.mem_cons_self _ _))
    have hfinal := this pre (fun p hp => hp)
    rw [hsplit] at hfinal
    exact hfinal

theorem headI_append_of_ne_nil (l t : List Nat) (h : l ≠ []) : (l ++ t).headI = l.headI := by
  cases l with
  | nil => exact absurd rfl h
  | cons a as => rfl

theorem insertIntoGroups_inv (S : List PendingLeak) (d : PendingLeak) (hd : d ∈ S) :
    ∀ gs : List SimilarityGroup, (∀ g ∈ gs, GroupInv S g) →
      ∀ g ∈ insertIntoGroups gs d, GroupInv S g := by
  intro gs
  induction gs with
  | nil =>
    intro _ g hg
    simp only [insertIntoGroups, List.mem_singleton] at hg
    subst hg
    exact ⟨List.nodup_singleton _, by simp, by simp, ⟨d, hd, rfl, rfl⟩⟩
  | cons g0 rest ih =>
    intro hinv g hg
    simp only [insertIntoGroups] at hg
    by_cases hsim : SIMILARITY_THRESHOLD ≤ calculateSimilarity g0.representativeText d.leakText
    · rw [if_pos hsim] at hg
      rcases List.mem_cons.mp hg with hg | hg
      · by_cases hmem : d.submittedBy ∈ g0.userIds
        · rw [if_pos hmem] at hg
          rw [hg]
          exact hinv g0 (List.mem_cons_self _ _)
        · rw [if_neg hmem] at hg
          subst hg
          obtain ⟨hnd, hlne, hune, d0, hd0, hh1, hh2⟩ := hinv g0 (List.mem_cons_self _ _)
          refine ⟨?_, by simp, by simp, ⟨d0, hd0, ?_, ?_⟩⟩
          · refine List.Nodup.append hnd (List.nodup_singleton _) ?_
            intro a ha hb
            rw [List.mem_singleton] at hb
            subst hb
            exact hmem ha
          · rw [headI_append_of_ne_nil _ _ hlne]
            exact hh1
          · rw [headI_append_of_ne_nil _ _ hune]
            exact hh2
      · exact hinv g (List.mem_cons_of_mem _ hg)
    · rw [if_neg hsim] at hg
      rcases List.mem_cons.mp hg with hg | hg
      · rw [hg]
        exact hinv g0 (List.mem_cons_self _ _)
      · exact ih (fun g1 hg1 => hinv g1 (List.mem_cons_of_mem _ hg1)) g hg

theorem clusterize_fold_inv (S : List PendingLeak) :
    ∀ (ds : List PendingLeak), (∀ d ∈ ds, d ∈ S) →
      ∀ gs0 : List SimilarityGroup, (∀ g ∈ gs0, GroupInv S g) →
      ∀ g ∈ ds.foldl insertIntoGroups gs0, GroupInv S g := by
  intro ds
  induction ds with
  | nil =>
    intro _ gs0 h g hg
    exact h g hg
  | cons d rest ih =>
    intro hds gs0 h0 g hg
    rw [List.foldl_cons] at hg
    exact ih (fun d1 hd1 => hds d1 (List.mem_cons_of_mem _ hd1))
      (insertIntoGroups gs0 d)
      (insertIntoGroups_inv S d (hds d (List.mem_cons_self _ _)) gs0 h0) g hg

theorem clusterize_groupInv (details : List PendingLeak) :
    ∀ g ∈ clusterize details, GroupInv details g := by
  intro g hg
  exact clusterize_fold_inv details details (fun d hd => hd) [] (by simp) g hg

/-- C5: among the clusters produced by the greedy clustering pass, the
Resolver's scan selects exactly the cluster the spec describes: the one with
the most distinct submitters among clusters with at least two, ties resolved
to the earliest-formed. -/
theorem resolver_winner_selection (details : List PendingLeak) :
    selectLargest (clusterize details) = winnerSpec (clusterize details) :=
  selectLargest_eq_winnerSpec _ (fun g hg => (clusterize_groupInv details g hg).1)

theorem find?_eq_of_nodup_map (l : List PendingLeak) (d : PendingLeak)
    (hnd : (l.map (fun x => x.leakId)).Nodup) (hd : d ∈ l) :
    l.find? (fun x => x.leakId = d.leakId) = some d := by
  induction l with
  | nil => simp at hd
  | cons a rest ih =>
    rw [List.map_cons, List.nodup_cons] at hnd
    obtain ⟨hna, hrest⟩ := hnd
    rcases List.mem_cons.mp hd with hd | hd
    · subst hd
      exact List.find?_cons_of_pos _ (by simp)
    · have hne : ¬ (a.leakId = d.leakId) := by
        intro he
        exact hna (he ▸ List.mem_map_of_mem (fun x => x.leakId) hd)
      rw [List.find?_cons_of_neg _ (by simp [hne])]
      exact ih hrest hd

/-- C6: given the winning cluster `g`, the Resolver verifies the cluster's
first-inserted submission (the head of its id list, by append order), the
verifiers are exactly the distinct submitters of `g` other than the
canonical submission's submitter (the head of its submitter list), and an
empty verifier set yields no decision without invoking the mutation. -/
theorem resolver_canonical_and_verifiers (data : ConsensusData) (g : SimilarityGroup)
    (hclosed : data.closed = false)
    (h2 : ¬ (pendingOf data).length < 2)
    (h3 : ¬ ((pendingOf data).map (fun d => d.submittedBy)).toFinset.card < 2)
    (hids : ((pendingOf data).map (fun d => d.leakId)).Nodup)
    (hsel : selectLargest (clusterize (pendingOf data)) = some g) :
    g.userIds.Nodup ∧
    processRequestConsensus (some data) =
      (if g.userIds.filter (fun u => u ≠ g.userIds.headI) = [] then none
       else some ⟨g.leakIds.headI, g.userIds.filter (fun u => u ≠ g.userIds.headI)⟩) := by
  have hgmem : g ∈ clusterize (pendingOf data) := selectLargest_mem _ _ hsel
  obtain ⟨hnd, hlne, hune, d0, hd0, hh1, hh2⟩ := clusterize_groupInv (pendingOf data) g hgmem
  refine ⟨hnd, ?_⟩
  unfold processRequestConsensus
  simp only [hclosed, Bool.false_eq_true, if_false]
  rw [if_neg h2, if_neg h3]
  simp only [hsel]
  have hfind : (pendingOf data).find? (fun x => x.leakId = g.leakIds.headI) = some d0 := by
    rw [hh1]
    exact find?_eq_of_nodup_map (pendingOf data) d0 hids hd0
  simp only [hfind]
  rw [hh1, hh2]
  simp only [List.length_eq_zero]

/-- Helper for evaluating the scorer on literally equal texts: equal
normalized forms short-circuit to similarity 1. -/
theorem calculateSimilarity_of_norm_eq (t1 t2 : List Char)
    (h : normalizeText t1 = normalizeText t2) : calculateSimilarity t1 t2 = 1 := by
  unfold calculateSimilarity
  simp only
  rw [if_pos h]

/-- Witness for C6: two identical submissions by different users form one
cluster; its first submission (id 1, user 10) is verified and the other
submitter (user 20) is the sole verifier. -/
theorem resolver_canonical_and_verifiers_witness :
    processRequestConsensus (some ⟨false, some 7,
      [⟨1, ['h', 'i'], some 10, false⟩, ⟨2, ['h', 'i'], some 20, false⟩]⟩) =
      some ⟨1, [20]⟩ := by
  have hsim : SIMILARITY_THRESHOLD ≤ calculateSimilarity ['h', 'i'] ['h', 'i'] := by
    rw [calculateSimilarity_of_norm_eq ['h', 'i'] ['h', 'i'] rfl]
    unfold SIMILARITY_THRESHOLD
    norm_num
  have hclu : clusterize (pendingOf ⟨false, some 7,
      [⟨1, ['h', 'i'], some 10, false⟩, ⟨2, ['h', 'i'], some 20, false⟩]⟩) =
      [⟨[1, 2], [10, 20], ['h', 'i']⟩] := by
    show clusterize [⟨1, ['h', 'i'], 10⟩, ⟨2, ['h', 'i'], 20⟩] = _
    unfold clusterize
    simp only [List.foldl_cons, List.foldl_nil]
    have h1 : insertIntoGroups [] ⟨1, ['h', 'i'], 10⟩ = [⟨[1], [10], ['h', 'i']⟩] := by
      simp [insertIntoGroups]
    rw [h1]
    simp only [insertIntoGroups]
    rw [if_pos hsim]
    decide
  have hsel : selectLargest (clusterize (pendingOf ⟨false, some 7,
      [⟨1, ['h', 'i'], some 10, false⟩, ⟨2, ['h', 'i'], some 20, false⟩]⟩)) =
      some ⟨[1, 2], [10, 20], ['h', 'i']⟩ := by
    rw [hclu]
    rfl
  have h := resolver_canonical_and_verifiers
    ⟨false, some 7, [⟨1, ['h', 'i'], some 10, false⟩, ⟨2, ['h', 'i'], some 20, false⟩]⟩
    ⟨[1, 2], [10, 20], ['h', 'i']⟩ rfl (by decide) (by decide) (by decide) hsel
  rw [h.2]
  decide

theorem edist_nil_left (ys : List Char) : edist [] ys = ys.length := by
  cases ys <;> rw [edist.eq_def]

theorem edist_nil_right (xs : List Char) : edist xs [] = xs.length := by
  cases xs <;> rw [edist.eq_def]

theorem edist_cons_cons (x y : Char) (xs ys : List Char) :
    edist (x :: xs) (y :: ys) =
      min (min (edist (x :: xs) ys + 1) (edist xs (y :: ys) + 1))
        (edist xs ys + levCost x y) := by
  rw [edist.eq_def]

theorem levCost_comm (x y : Char) : levCost x y = levCost y x := by
  unfold levCost
  by_cases h : x = y
  · rw [if_pos h, if_pos h.symm]
  · rw [if_neg h, if_neg (fun hx => h hx.symm)]

theorem edist_symm (a b : List Char) : edist a b = edist b a := by
  induction a, b using edist.induct with
  | case1 ys => rw [edist_nil_left, edist_nil_right]
  | case2 x xs => rw [edist_nil_left, edist_nil_right]
  | case3 x xs y ys ih1 ih2 ih3 =>
    rw [edist_cons_cons, edist_cons_cons, ih1, ih2, ih3, levCost_comm]
    rw [min_comm (edist ys (x :: xs) + 1) (edist (y :: ys) xs + 1)]

theorem dP_nil_right (a : List Char) : dP a [] = a.length := by
  unfold dP
  rw [List.reverse_nil, edist_nil_right, List.length_reverse]

theorem dP_nil_left (b : List Char) : dP [] b = b.length := by
  unfold dP
  rw [List.reverse_nil, edist_nil_left, List.length_reverse]

theorem dP_snoc_snoc (p q : List Char) (x y : Char) :
    dP (p ++ [x]) (q ++ [y]) =
      min (min (dP (p ++ [x]) q + 1) (dP p (q ++ [y]) + 1)) (dP p q + levCost x y) := by
  unfold dP
  simp only [List.reverse_append, List.reverse_singleton, List.singleton_append]
  rw [edist_cons_cons]

theorem levRowStep_rowTail (c1 : Char) (p : List Char) :
    ∀ (s2rest q : List Char),
      levRowStep c1 s2rest (dP p q) (rowTail p q s2rest) (dP (p ++ [c1]) q) =
        rowTail (p ++ [c1]) q s2rest := by
  intro s2rest
  induction s2rest with
  | nil => intro q; rfl
  | cons y t ih =>
    intro q
    simp only [rowTail, levRowStep]
    rw [← dP_snoc_snoc p q c1 y]
    rw [ih (q ++ [y])]

theorem levRow_rowTail (c1 : Char) (p s2 : List Char) :
    levRow c1 s2 (p.length + 1) (dP p [] :: rowTail p [] s2) =
      dP (p ++ [c1]) [] :: rowTail (p ++ [c1]) [] s2 := by
  have hlen : dP (p ++ [c1]) [] = p.length + 1 := by
    rw [dP_nil_right]
    simp
  simp only [levRow]
  rw [← hlen]
  rw [levRowStep_rowTail c1 p s2 []]

theorem levRows_rowTail (s2 : List Char) :
    ∀ (s1rest p : List Char),
      levRows s2 s1rest (p.length + 1) (dP p [] :: rowTail p [] s2) =
        dP (p ++ s1rest) [] :: rowTail (p ++ s1rest) [] s2 := by
  intro s1rest
  induction s1rest with
  | nil =>
    intro p
    simp only [levRows, List.append_nil]
  | cons c1 rest ih =>
    intro p
    simp only [levRows]
    rw [levRow_rowTail]
    have hlen : p.length + 1 + 1 = (p ++ [c1]).length + 1 := by simp
    rw [hlen, ih (p ++ [c1])]
    simp [List.append_assoc]

theorem rowTail_nil_range (s2rest : List Char) :
    ∀ q : List Char, rowTail [] q s2rest = List.range' (q.length + 1) s2rest.length := by
  induction s2rest with
  | nil => intro q; rfl
  | cons y t ih =>
    intro q
    simp only [rowTail, dP_nil_left, List.length_append, List.length_singleton,
      List.length_cons]
    rw [List.range'_succ, ih (q ++ [y])]
    simp

theorem range_eq_row_nil (s2 : List Char) :
    List.range (s2.length + 1) = dP [] [] :: rowTail [] [] s2 := by
  rw [rowTail_nil_range s2 []]
  rw [List.range_eq_range', List.range'_succ]
  simp [dP_nil_right]

theorem rowTail_getD (p : List Char) :
    ∀ (s2rest q : List Char),
      (dP p q :: rowTail p q s2rest).getD s2rest.length 0 = dP p (q ++ s2rest) := by
  intro s2rest
  induction s2rest with
  | nil =>
    intro q
    rw [List.append_nil]
    rfl
  | cons y t ih =>
    intro q
    simp only [rowTail, List.length_cons, List.getD_cons_succ]
    rw [ih (q ++ [y])]
    rw [List.append_assoc]
    rfl

theorem levDistance_eq_dP (s1 s2 : List Char) : levDistance s1 s2 = dP s1 s2 := by
  unfold levDistance
  rw [range_eq_row_nil s2]
  have h1 : levRows s2 s1 1 (dP [] [] :: rowTail [] [] s2) =
      dP s1 [] :: rowTail s1 [] s2 := by
    have h := levRows_rowTail s2 s1 []
    simpa using h
  rw [h1]
  have h2 := rowTail_getD s1 s2 []
  simpa using h2

theorem levDistance_symm (s1 s2 : List Char) : levDistance s1 s2 = levDistance s2 s1 := by
  rw [levDistance_eq_dP, levDistance_eq_dP]
  unfold dP
  exact edist_symm _ _

theorem levenshteinSimilarity_symm (a b : List Char) :
    levenshteinSimilarity a b = levenshteinSimilarity b a := by
  have hcase : ∀ (x y : List Char), y.length ≤ x.length →
      levenshteinSimilarity x y = levenshteinSimilarity y x := by
    intro x y hle
    by_cases h1 : x.length = 0 ∧ y.length = 0
    · conv_lhs => rw [levenshteinSimilarity.eq_def]
      conv_rhs => rw [levenshteinSimilarity.eq_def]
      rw [if_pos h1, if_pos ⟨h1.2, h1.1⟩]
    · by_cases h2 : x.length = 0 ∨ y.length = 0
      · conv_lhs => rw [levenshteinSimilarity.eq_def]
        conv_rhs => rw [levenshteinSimilarity.eq_def]
        rw [if_neg h1, if_neg (fun hx : y.length = 0 ∧ x.length = 0 => h1 ⟨hx.2, hx.1⟩)]
        rw [if_pos h2, if_pos (Or.symm h2)]
      · by_cases h3 : y.length < x.length
        · conv_rhs => rw [levenshteinSimilarity.eq_def]
          rw [if_neg (fun hx : y.length = 0 ∧ x.length = 0 => h1 ⟨hx.2, hx.1⟩)]
          rw [if_neg (fun hx : y.length = 0 ∨ x.length = 0 => h2 (Or.symm hx))]
          rw [if_pos h3]
        · have heq : y.length = x.length := by omega
          conv_lhs => rw [levenshteinSimilarity.eq_def]
          conv_rhs => rw [levenshteinSimilarity.eq_def]
          rw [if_neg h1, if_neg (fun hx : y.length = 0 ∧ x.length = 0 => h1 ⟨hx.2, hx.1⟩)]
          rw [if_neg h2, if_neg (fun hx : y.length = 0 ∨ x.length = 0 => h2 (Or.symm hx))]
          rw [if_neg (by omega : ¬ x.length < y.length)]
          rw [if_neg (by omega : ¬ y.length < x.length)]
          simp only [levDistance_symm x y, Nat.max_comm x.length y.length]
  by_cases hle : b.length ≤ a.length
  · exact hcase a b hle
  · exact (hcase b a (by omega)).symm

theorem levenshteinSimilarity_bounds (a b : List Char) :
    0 ≤ levenshteinSimilarity a b ∧ levenshteinSimilarity a b ≤ 1 := by
  have hmain : ∀ (x y : List Char), ¬ (x.length = 0 ∧ y.length = 0) →
      ¬ (x.length = 0 ∨ y.length = 0) → ¬ (x.length < y.length) →
      0 ≤ levenshteinSimilarity x y ∧ levenshteinSimilarity x y ≤ 1 := by
    intro x y h1 h2 h3
    rw [levenshteinSimilarity.eq_def, if_neg h1, if_neg h2, if_neg h3]
    constructor
    · exact le_max_left _ _
    · apply max_le (by norm_num)
      have hd : (0 : ℝ) ≤ (levDistance x y : ℝ) / ((max x.length y.length : Nat) : ℝ) :=
        div_nonneg (by positivity) (by positivity)
      linarith
  by_cases h1 : a.length = 0 ∧ b.length = 0
  · rw [levenshteinSimilarity.eq_def, if_pos h1]
    norm_num
  · by_cases h2 : a.length = 0 ∨ b.length = 0
    · rw [levenshteinSimilarity.eq_def, if_neg h1, if_pos h2]
      norm_num
    · by_cases h3 : a.length < b.length
      · rw [levenshteinSimilarity.eq_def, if_neg h1, if_neg h2, if_pos h3]
        exact hmain b a (fun hx => h1 ⟨hx.2, hx.1⟩) (fun hx => h2 (Or.symm hx)) (by omega)
      · exact hmain a b h1 h2 h3

theorem vecLookup_nil (k : List Char) : vecLookup [] k = none := rfl

theorem vecLookup_cons_pos (q : List Char × Nat) (rest : ShingleVec) (k : List Char)
    (h : q.1 = k) : vecLookup (q :: rest) k = some q.2 := by
  unfold vecLookup
  rw [List.find?_cons_of_pos _ (by simp [h])]
  rfl

theorem vecLookup_cons_neg (q : List Char × Nat) (rest : ShingleVec) (k : List Char)
    (h : ¬ q.1 = k) : vecLookup (q :: rest) k = vecLookup rest k := by
  unfold vecLookup
  rw [List.find?_cons_of_neg _ (by simp [h])]

theorem vecLookup_eq_none_of_not_mem (v : ShingleVec) (k : List Char)
    (h : k ∉ v.map (fun p => p.1)) : vecLookup v k = none := by
  induction v with
  | nil => rfl
  | cons q rest ih =>
    rw [List.map_cons, List.mem_cons] at h
    push_neg at h
    rw [vecLookup_cons_neg q rest k (fun hx => h.1 hx.symm)]
    exact ih h.2

theorem sum_map_add_distrib (l : ShingleVec) (f g : List Char × Nat → Nat) :
    (l.map (fun p => f p + g p)).sum = (l.map f).sum + (l.map g).sum := by
  induction l with
  | nil => rfl
  | cons q rest ih =>
    simp only [List.map_cons, List.sum_cons, ih]
    ring

theorem sumSquares_eq_sum (v : ShingleVec) :
    sumSquares v = (v.map (fun p => p.2 * p.2)).sum := by
  unfold sumSquares
  have h : ∀ a : Nat, v.foldl (fun acc p => acc + p.2 * p.2) a =
      a + (v.map (fun p => p.2 * p.2)).sum := by
    induction v with
    | nil => intro a; simp
    | cons q rest ih =>
      intro a
      rw [List.foldl_cons, List.map_cons, List.sum_cons, ih]
      ring
  rw [h 0, Nat.zero_add]

theorem dotShared_eq_sum (S L : ShingleVec) :
    dotShared S L = (S.map (fun p => p.2 * (vecLookup L p.1).getD 0)).sum := by
  unfold dotShared
  have h : ∀ a : Nat, S.foldl (fun acc p =>
      match vecLookup L p.1 with
      | some other => acc + p.2 * other
      | none => acc) a = a + (S.map (fun p => p.2 * (vecLookup L p.1).getD 0)).sum := by
    induction S with
    | nil => intro a; simp
    | cons q rest ih =>
      intro a
      rw [List.foldl_cons, List.map_cons, List.sum_cons]
      cases hl : vecLookup L q.1 with
      | none =>
        rw [ih]
        simp only [Option.getD_none, Nat.mul_zero]
        ring
      | some o =>
        rw [ih]
        simp only [Option.getD_some]
        ring
  rw [h 0, Nat.zero_add]

theorem sum_map_ite_key (B : ShingleVec) (k : List Char) (v : Nat)
    (hB : (B.map (fun p => p.1)).Nodup) :
    (B.map (fun p => if p.1 = k then p.2 * v else 0)).sum = (vecLookup B k).getD 0 * v := by
  induction B with
  | nil => simp [vecLookup_nil]
  | cons q rest ih =>
    rw [List.map_cons, List.nodup_cons] at hB
    obtain ⟨hq, hrest⟩ := hB
    rw [List.map_cons, List.sum_cons]
    by_cases hqk : q.1 = k
    · rw [if_pos hqk, vecLookup_cons_pos q rest k hqk]
      simp only [Option.getD_some]
      have hzero : (rest.map (fun p => if p.1 = k then p.2 * v else 0)).sum = 0 := by
        apply List.sum_eq_zero
        intro x hx
        rw [List.mem_map] at hx
        obtain ⟨p, hp, hpx⟩ := hx
        by_cases hpk : p.1 = k
        · exfalso
          apply hq
          rw [List.mem_map]
          exact ⟨p, hp, by rw [hpk, ← hqk]⟩
        · rw [if_neg hpk] at hpx
          exact hpx.symm
      rw [hzero, Nat.add_zero]
    · rw [if_neg hqk, vecLookup_cons_neg q rest k hqk, ih hrest, Nat.zero_add]

theorem dotSum_comm (A : ShingleVec) :
    ∀ B : ShingleVec, (A.map (fun p => p.1)).Nodup → (B.map (fun p => p.1)).Nodup →
      (A.map (fun p => p.2 * (vecLookup B p.1).getD 0)).sum =
        (B.map (fun p => p.2 * (vecLookup A p.1).getD 0)).sum := by
  induction A with
  | nil =>
    intro B _ _
    simp [vecLookup_nil]
  | cons q rest ih =>
    intro B hA hB
    rw [List.map_cons, List.nodup_cons] at hA
    obtain ⟨hq, hrest⟩ := hA
    rw [List.map_cons, List.sum_cons]
    have hrestq : vecLookup rest q.1 = none := by
      apply vecLookup_eq_none_of_not_mem
      exact hq
    have hpoint : ∀ p : List Char × Nat,
        p.2 * (vecLookup (q :: rest) p.1).getD 0 =
          (if p.1 = q.1 then p.2 * q.2 else 0) + p.2 * (vecLookup rest p.1).getD 0 := by
      intro p
      by_cases hpq : p.1 = q.1
      · rw [if_pos hpq, vecLookup_cons_pos q rest p.1 hpq.symm]
        rw [hpq, hrestq]
        simp
      · rw [if_neg hpq, vecLookup_cons_neg q rest p.1 (fun hx => hpq hx.symm), Nat.zero_add]
    have hmap : (B.map (fun p => p.2 * (vecLookup (q :: rest) p.1).getD 0)).sum =
        (B.map (fun p => (if p.1 = q.1 then p.2 * q.2 else 0) +
          p.2 * (vecLookup rest p.1).getD 0)).sum := by
      congr 1
      apply List.map_congr_left
      intro p _
      exact hpoint p
    rw [hmap, sum_map_add_distrib, sum_map_ite_key B q.1 q.2 hB, ih B hrest hB]
    rw [Nat.mul_comm]

theorem dotShared_comm (A B : ShingleVec)
    (hA : (A.map (fun p => p.1)).Nodup) (hB : (B.map (fun p => p.1)).Nodup) :
    dotShared A B = dotShared B A := by
  rw [dotShared_eq_sum, dotShared_eq_sum]
  exact dotSum_comm A B hA hB

theorem cosineSimilarity_symm (A B : ShingleVec)
    (hA : (A.map (fun p => p.1)).Nodup) (hB : (B.map (fun p => p.1)).Nodup) :
    cosineSimilarity A B = cosineSimilarity B A := by
  unfold cosineSimilarity
  by_cases h0 : A.length = 0 ∨ B.length = 0
  · rw [if_pos h0, if_pos (Or.symm h0)]
    by_cases he : A.length = B.length
    · rw [if_pos he, if_pos he.symm]
    · rw [if_neg he, if_neg (fun hx => he hx.symm)]
  · rw [if_neg h0, if_neg (fun hx : B.length = 0 ∨ A.length = 0 => h0 (Or.symm hx))]
    simp only
    by_cases hz : sumSquares A = 0 ∨ sumSquares B = 0
    · rw [if_pos hz, if_pos (Or.symm hz)]
    · rw [if_neg hz, if_neg (fun hx : sumSquares B = 0 ∨ sumSquares A = 0 => hz (Or.symm hx))]
      have hdot : (if A.length ≤ B.length then dotShared A B else dotShared B A) =
          (if B.length ≤ A.length then dotShared B A else dotShared A B) := by
        rcases lt_trichotomy A.length B.length with h | h | h
        · rw [if_pos (le_of_lt h), if_neg (by omega)]
        · rw [if_pos (le_of_eq h), if_pos (le_of_eq h.symm)]
          exact dotShared_comm A B hA hB
        · rw [if_neg (by omega), if_pos (le_of_lt h)]
      rw [hdot, mul_comm ((sumSquares A : Nat) : ℝ) ((sumSquares B : Nat) : ℝ)]

theorem sum_map_eq_range_sum (l : ShingleVec) (f : List Char × Nat → Nat) :
    (l.map f).sum = ∑ i ∈ Finset.range l.length, f (l.getD i ([], 0)) := by
  induction l with
  | nil => simp
  | cons x xs ih =>
    rw [List.map_cons, List.sum_cons, List.length_cons, Finset.sum_range_succ']
    simp only [List.getD_cons_succ, List.getD_cons_zero]
    rw [ih]
    ring

theorem vecLookup_eraseP_ne (L : ShingleVec) (k k2 : List Char) (hne : k2 ≠ k) :
    vecLookup (L.eraseP (fun p => p.1 = k)) k2 = vecLookup L k2 := by
  induction L with
  | nil => rfl
  | cons q rest ih =>
    by_cases hq : q.1 = k
    · rw [List.eraseP_cons_of_pos (by simp [hq])]
      rw [vecLookup_cons_neg q rest k2 (fun hx => hne (hx ▸ hq))]
    · rw [List.eraseP_cons_of_neg (by simp [hq])]
      by_cases hq2 : q.1 = k2
      · rw [vecLookup_cons_pos q _ k2 hq2, vecLookup_cons_pos q rest k2 hq2]
      · rw [vecLookup_cons_neg q _ k2 hq2, vecLookup_cons_neg q rest k2 hq2, ih]

theorem sum_sq_eraseP (L : ShingleVec) (k : List Char) (v : Nat)
    (hl : vecLookup L k = some v) :
    (L.map (fun p => p.2 * p.2)).sum =
      v * v + ((L.eraseP (fun p => p.1 = k)).map (fun p => p.2 * p.2)).sum := by
  induction L with
  | nil => simp [vecLookup_nil] at hl
  | cons q rest ih =>
    by_cases hq : q.1 = k
    · have hv : q.2 = v := by
        have h2 := vecLookup_cons_pos q rest k hq
        rw [hl] at h2
        exact (Option.some.inj h2).symm
      rw [List.eraseP_cons_of_pos (by simp [hq])]
      rw [List.map_cons, List.sum_cons, hv]
    · have hl2 : vecLookup rest k = some v := by
        rw [vecLookup_cons_neg q rest k hq] at hl
        exact hl
      rw [List.eraseP_cons_of_neg (by simp [hq])]
      rw [List.map_cons, List.sum_cons, List.map_cons, List.sum_cons, ih hl2]
      ring

theorem sum_map_sq_le (ks : List (List Char)) :
    ∀ L : ShingleVec, ks.Nodup →
      (ks.map (fun k => (vecLookup L k).getD 0 * (vecLookup L k).getD 0)).sum ≤
        (L.map (fun p => p.2 * p.2)).sum := by
  induction ks with
  | nil => intro L _; simp
  | cons k rest ih =>
    intro L hks
    rw [List.nodup_cons] at hks
    obtain ⟨hk, hrest⟩ := hks
    rw [List.map_cons, List.sum_cons]
    cases hl : vecLookup L k with
    | none =>
      simp only [Option.getD_none, Nat.zero_mul, Nat.zero_add]
      exact ih L hrest
    | some v =>
      simp only [Option.getD_some]
      have hsum : (L.map (fun p => p.2 * p.2)).sum =
          v * v + ((L.eraseP (fun p => p.1 = k)).map (fun p => p.2 * p.2)).sum :=
        sum_sq_eraseP L k v hl
      have hcongr : (rest.map (fun k2 =>
          (vecLookup L k2).getD 0 * (vecLookup L k2).getD 0)).sum =
          (rest.map (fun k2 =>
            (vecLookup (L.eraseP (fun p => p.1 = k)) k2).getD 0 *
              (vecLookup (L.eraseP (fun p => p.1 = k)) k2).getD 0)).sum := by
        congr 1
        apply List.map_congr_left
        intro k2 hk2
        rw [vecLookup_eraseP_ne L k k2 (fun hx => hk (hx ▸ hk2))]
      rw [hsum, hcongr]
      exact Nat.add_le_add_left (ih (L.eraseP (fun p => p.1 = k)) hrest) (v * v)

theorem nat_range_cs (n : Nat) (F G : Nat → Nat) :
    ((∑ i ∈ Finset.range n, F i * G i : Nat) : ℝ) ^ 2 ≤
      ((∑ i ∈ Finset.range n, F i * F i : Nat) : ℝ) *
        ((∑ i ∈ Finset.range n, G i * G i : Nat) : ℝ) := by
  have hCS := Finset.sum_mul_sq_le_sq_mul_sq (Finset.range n)
      (fun i => (F i : ℝ)) (fun i => (G i : ℝ))
  have h1 : ((∑ i ∈ Finset.range n, F i * G i : Nat) : ℝ) =
      ∑ i ∈ Finset.range n, (F i : ℝ) * (G i : ℝ) := by
    push_cast
    rfl
  have h2 : ((∑ i ∈ Finset.range n, F i * F i : Nat) : ℝ) =
      ∑ i ∈ Finset.range n, (F i : ℝ) ^ 2 := by
    push_cast
    apply Finset.sum_congr rfl
    intro i _
    ring
  have h3 : ((∑ i ∈ Finset.range n, G i * G i : Nat) : ℝ) =
      ∑ i ∈ Finset.range n, (G i : ℝ) ^ 2 := by
    push_cast
    apply Finset.sum_congr rfl
    intro i _
    ring
  rw [h1, h2, h3]
  exact hCS

theorem dot_sq_le (S L : ShingleVec) (hS : (S.map (fun p => p.1)).Nodup) :
    ((dotShared S L : Nat) : ℝ) ^ 2 ≤
      ((sumSquares S : Nat) : ℝ) * ((sumSquares L : Nat) : ℝ) := by
  rw [dotShared_eq_sum, sumSquares_eq_sum, sumSquares_eq_sum]
  rw [sum_map_eq_range_sum S (fun p => p.2 * (vecLookup L p.1).getD 0)]
  rw [sum_map_eq_range_sum S (fun p => p.2 * p.2)]
  have hG : (∑ i ∈ Finset.range S.length,
      (vecLookup L (S.getD i ([], 0)).1).getD 0 * (vecLookup L (S.getD i ([], 0)).1).getD 0)
      ≤ (L.map (fun p => p.2 * p.2)).sum := by
    rw [← sum_map_eq_range_sum S
      (fun p => (vecLookup L p.1).getD 0 * (vecLookup L p.1).getD 0)]
    have hmm : (S.map (fun p => (vecLookup L p.1).getD 0 * (vecLookup L p.1).getD 0)) =
        ((S.map (fun p => p.1)).map
          (fun k => (vecLookup L k).getD 0 * (vecLookup L k).getD 0)) := by
      rw [List.map_map]
      rfl
    rw [hmm]
    exact sum_map_sq_le (S.map (fun p => p.1)) L hS
  have hcs := nat_range_cs S.length (fun i => (S.getD i ([], 0)).2)
      (fun i => (vecLookup L (S.getD i ([], 0)).1).getD 0)
  refine le_trans hcs ?_
  apply mul_le_mul_of_nonneg_left ?_ (by positivity)
  exact_mod_cast hG

theorem cosineSimilarity_bounds (A B : ShingleVec)
    (hA : (A.map (fun p => p.1)).Nodup) (hB : (B.map (fun p => p.1)).Nodup) :
    0 ≤ cosineSimilarity A B ∧ cosineSimilarity A B ≤ 1 := by
  unfold cosineSimilarity
  by_cases h0 : A.length = 0 ∨ B.length = 0
  · rw [if_pos h0]
    by_cases he : A.length = B.length
    · rw [if_pos he]
      norm_num
    · rw [if_neg he]
      norm_num
  · rw [if_neg h0]
    simp only
    by_cases hz : sumSquares A = 0 ∨ sumSquares B = 0
    · rw [if_pos hz]
      norm_num
    · rw [if_neg hz]
      push_neg at hz
      have hprod : (0 : ℝ) < ((sumSquares A : Nat) : ℝ) * ((sumSquares B : Nat) : ℝ) := by
        apply mul_pos
        · exact_mod_cast Nat.pos_of_ne_zero hz.1
        · exact_mod_cast Nat.pos_of_ne_zero hz.2
      constructor
      · exact div_nonneg (by positivity) (Real.sqrt_nonneg _)
      · rw [div_le_one (Real.sqrt_pos.mpr hprod)]
        have hd2 : (((if A.length ≤ B.length then dotShared A B else dotShared B A : Nat)) : ℝ) ^ 2 ≤
            ((sumSquares A : Nat) : ℝ) * ((sumSquares B : Nat) : ℝ) := by
          by_cases hle : A.length ≤ B.length
          · rw [if_pos hle]
            exact dot_sq_le A B hA
          · rw [if_neg hle]
            exact le_trans (dot_sq_le B A hB) (le_of_eq (mul_comm _ _))
        calc (((if A.length ≤ B.length then dotShared A B else dotShared B A : Nat)) : ℝ)
            = Real.sqrt ((((if A.length ≤ B.length then dotShared A B
                else dotShared B A : Nat)) : ℝ) ^ 2) := (Real.sqrt_sq (by positivity)).symm
          _ ≤ Real.sqrt (((sumSquares A : Nat) : ℝ) * ((sumSquares B : Nat) : ℝ)) :=
            Real.sqrt_le_sqrt hd2

theorem keys_nodup_vecSet (v : ShingleVec) (k : List Char) (n : Nat)
    (h : (v.map (fun p => p.1)).Nodup) : ((vecSet v k n).map (fun p => p.1)).Nodup := by
  unfold vecSet
  by_cases hf : (v.find? (fun p => p.1 = k)).isSome
  · rw [if_pos hf]
    have hkeys : ((v.map (fun p => if p.1 = k then (p.1, n) else p)).map (fun p => p.1)) =
        v.map (fun p => p.1) := by
      rw [List.map_map]
      apply List.map_congr_left
      intro p _
      by_cases hpk : p.1 = k
      · simp [Function.comp, hpk]
      · simp [Function.comp, hpk]
    rw [hkeys]
    exact h
  · rw [if_neg hf]
    rw [List.map_append]
    rw [List.nodup_append]
    refine ⟨h, List.nodup_singleton k, ?_⟩
    intro x hx hxk
    simp only [List.map_cons, List.map_nil, List.mem_singleton] at hxk
    rw [List.mem_map] at hx
    obtain ⟨p, hp, hpk⟩ := hx
    apply hf
    rw [List.find?_isSome]
    exact ⟨p, hp, by simp [hpk, hxk]⟩

theorem keys_nodup_vecInc (v : ShingleVec) (k : List Char)
    (h : (v.map (fun p => p.1)).Nodup) : ((vecInc v k).map (fun p => p.1)).Nodup :=
  keys_nodup_vecSet v k _ h

theorem keys_nodup_foldl_vecInc {α : Type} (g : α → List Char) (l : List α) :
    ∀ v : ShingleVec, (v.map (fun p => p.1)).Nodup →
      ((l.foldl (fun w x => vecInc w (g x)) v).map (fun p => p.1)).Nodup := by
  induction l with
  | nil => intro v h; exact h
  | cons x rest ih =>
    intro v h
    rw [List.foldl_cons]
    exact ih (vecInc v (g x)) (keys_nodup_vecInc v (g x) h)

theorem shingle_keys_nodup (text : List Char) :
    ((buildShingleVector text).map (fun p => p.1)).Nodup := by
  unfold buildShingleVector
  by_cases h0 : (tokenize text).length = 0
  · rw [if_pos h0]
    exact List.nodup_nil
  · rw [if_neg h0]
    simp only
    by_cases hv : ((List.range ((tokenize text).length + 1 - SHINGLE_SIZE)).foldl
        (fun v i => vecInc v (joinSpace (((tokenize text).drop i).take SHINGLE_SIZE))) []).length = 0
    · rw [if_pos hv]
      exact keys_nodup_foldl_vecInc (fun t => t) (tokenize text) [] List.nodup_nil
    · rw [if_neg hv]
      exact keys_nodup_foldl_vecInc
        (fun i => joinSpace (((tokenize text).drop i).take SHINGLE_SIZE))
        (List.range ((tokenize text).length + 1 - SHINGLE_SIZE)) [] List.nodup_nil

/-- C7: the similarity scorer is symmetric: for all texts `a` and `b`,
`calculateSimilarity a b = calculateSimilarity b a`. The normalized-equality
short circuit, the cosine score (by commutativity of the shared-key dot
product over vectors with distinct keys), and the Levenshtein score (by
symmetry of the edit distance and the explicit operand swap) all commute. -/
theorem similarity_symmetric (a b : List Char) :
    calculateSimilarity a b = calculateSimilarity b a := by
  unfold calculateSimilarity
  simp only
  by_cases h : normalizeText a = normalizeText b
  · rw [if_pos h, if_pos h.symm]
  · rw [if_neg h, if_neg (fun hx : normalizeText b = normalizeText a => h hx.symm)]
    rw [cosineSimilarity_symm (buildShingleVector (normalizeText a))
      (buildShingleVector (normalizeText b)) (shingle_keys_nodup _) (shingle_keys_nodup _)]
    rw [levenshteinSimilarity_symm (normalizeText a) (normalizeText b)]

/-- C8: for all input texts `a` and `b`, `calculateSimilarity a b` lies in
`[0, 1]` (the cosine score by Cauchy–Schwarz, the Levenshtein score by the
explicit clamp), and the similarity of any text with itself — the empty text
included — is `1` via the normalized-equality short circuit. -/
theorem similarity_bounded_and_self_one (a b : List Char) :
    0 ≤ calculateSimilarity a b ∧ calculateSimilarity a b ≤ 1 ∧
      calculateSimilarity a a = 1 := by
  have hb : 0 ≤ calculateSimilarity a b ∧ calculateSimilarity a b ≤ 1 := by
    unfold calculateSimilarity
    simp only
    by_cases h : normalizeText a = normalizeText b
    · rw [if_pos h]
      norm_num
    · rw [if_neg h]
      have hc := cosineSimilarity_bounds (buildShingleVector (normalizeText a))
        (buildShingleVector (normalizeText b)) (shingle_keys_nodup _) (shingle_keys_nodup _)
      have hl := levenshteinSimilarity_bounds (normalizeText a) (normalizeText b)
      by_cases hg : cosineSimilarity (buildShingleVector (normalizeText a))
          (buildShingleVector (normalizeText b)) < SHINGLE_THRESHOLD
      · rw [if_pos hg]
        exact hc
      · rw [if_neg hg]
        exact ⟨le_trans hc.1 (le_max_left _ _), max_le hc.2 hl.2⟩
  exact ⟨hb.1, hb.2, calculateSimilarity_of_norm_eq a a rfl⟩

end LeakHub
